import Mathlib

/-
Verification of the tag-registry generator (`tools/generate_tags.py`) and the
log-driven tag-removal tool (`tools/cleanup_invalid_tags.py`).

Texts are modelled as `List Char`.  Python string primitives (`strip`,
`splitlines`, `lstrip`, quote counting) and the handful of fixed regular
expressions the tools compile are embedded as executable scanners whose
backtracking behaviour is resolved by hand for each concrete pattern
(the patterns are anchored and simple enough that each has a deterministic
leftmost-match characterisation).  `re.finditer` is modelled by a fueled
left-to-right scan that only attempts matches at `re.MULTILINE` anchors
(start of text or just after a newline) and resumes after each match,
exactly as the Python engine does for these `^`-anchored patterns.
-/

set_option maxRecDepth 100000

namespace TagsTool

/-- Characters accepted by Python's default `str.strip` and by the regex
class `\s` (the ASCII range, which is all the corpus uses). -/
def pyIsSpace (c : Char) : Bool :=
  c = ' ' || c = '\t' || c = '\n' || c = '\r' || c = '\x0b' || c = '\x0c'

/-- The regex character class `[A-Z]`. -/
def isUpper (c : Char) : Bool := 'A' ≤ c && c ≤ 'Z'

/-- The regex character class `\d` (ASCII). -/
def isDigitCh (c : Char) : Bool := '0' ≤ c && c ≤ '9'

/-- The regex character class `["\']` used for quote delimiters. -/
def isQuote (c : Char) : Bool := c = '"' || c = '\''

/-- The regex class `\w` (ASCII), used for the word boundary `\b`. -/
def wordChar (c : Char) : Bool :=
  ('A' ≤ c && c ≤ 'Z') || ('a' ≤ c && c ≤ 'z') || isDigitCh c || c = '_'

/-- View of a Lean string literal as the character list the model works on. -/
def str (s : String) : List Char := s.data

/-- Python `str.strip()` (whitespace from both ends). -/
def pyStrip (s : List Char) : List Char :=
  ((s.dropWhile pyIsSpace).reverse.dropWhile pyIsSpace).reverse

/-- Python `str.lstrip(t)` for a single-character strip set `t`. -/
def lstripAll (t : Char) (s : List Char) : List Char := s.dropWhile (fun c => c = t)

/-- Worker for `pySplitlines`: accumulates the current line (reversed). -/
def splitlinesAux : List Char → List Char → List (List Char)
  | [], cur => [cur.reverse]
  | '\r' :: '\n' :: rest, cur =>
      cur.reverse :: (if rest.isEmpty then [] else splitlinesAux rest [])
  | '\r' :: rest, cur =>
      cur.reverse :: (if rest.isEmpty then [] else splitlinesAux rest [])
  | '\n' :: rest, cur =>
      cur.reverse :: (if rest.isEmpty then [] else splitlinesAux rest [])
  | c :: rest, cur => splitlinesAux rest (c :: cur)

/-- Python `str.splitlines()` over the line terminators the corpus uses
(`\n`, `\r`, `\r\n`); no trailing empty line, `[]` on the empty string. -/
def pySplitlines (s : List Char) : List (List Char) :=
  if s.isEmpty then [] else splitlinesAux s []

/-- One line of `strip_inline_comments`: full comment lines are kept verbatim;
otherwise the line is cut at the first `#` when the prefix holds an even
number of `"` and of `'` characters (source lines 42-51). -/
def strip_inline_comments_line (line : List Char) : List Char :=
  let s := pyStrip line
  if s.head? = some '#' || ['/', '/'].isPrefixOf s then line
  else if line.contains '#' then
    let pre := line.takeWhile (fun c => c ≠ '#')
    if pre.count '"' % 2 = 0 && pre.count '\'' % 2 = 0 then pre else line
  else line

/-- `strip_inline_comments` (source lines 39-52): per-line rewrite, lines
rejoined with `\n` exactly as `"\n".join(out)` does. -/
def strip_inline_comments (text : List Char) : List Char :=
  List.intercalate ['\n'] ((pySplitlines text).map strip_inline_comments_line)

/-- `\s*$` under `re.MULTILINE` succeeds at a position iff every character
strictly before the next newline (or the end of text) is whitespace. -/
def tailOk (s : List Char) : Bool :=
  (s.takeWhile (fun c => c ≠ '\n')).all pyIsSpace

/-- Index of the last `'\n'` while scanning `l` (accumulator `best`,
current index `i`); helper for the greedy extent of `\s*$`. -/
def lastNlIdx : List Char → Nat → Nat → Nat
  | [], _, best => best
  | c :: rest, i, best => lastNlIdx rest (i + 1) (if c = '\n' then i else best)

/-- Number of characters the greedy `\s*$` consumes (meaningful when
`tailOk s`): all of `s` when it is whitespace, otherwise up to (excluding)
the last newline inside the leading whitespace run. -/
def tailConsumed (s : List Char) : Nat :=
  let L := (s.takeWhile pyIsSpace).length
  if L = s.length then L else lastNlIdx (s.take L) 0 0

/-- Lazy search for the closing quote of `(.+?)Q\s*$` where `Q` is the class
`q`: the content grows one character at a time (never across a newline,
since `.` does not match `\n`) and closes at the first `q`-character whose
tail satisfies `\s*$`.  Returns content and remainder after the quote. -/
def findCloseBy (q : Char → Bool) (acc : List Char) : List Char → Option (List Char × List Char)
  | [] => none
  | c :: rest =>
    if c = '\n' then none
    else if q c && tailOk rest then some (acc.reverse, rest)
    else findCloseBy q (c :: acc) rest

/-- `TAG_LINE_RE` after its leading `\s*`: three capitals, whitespace, `=`.
Returns the tag and the remainder after the `=`. -/
def tagLineAfterWs : List Char → Option (List Char × List Char)
  | a :: b :: c :: r2 =>
    if isUpper a && isUpper b && isUpper c then
      match r2.dropWhile pyIsSpace with
      | '=' :: r4 => some ([a, b, c], r4)
      | _ => none
    else none
  | _ => none

/-- `TAG_LINE_RE = ^\s*([A-Z]{3})\s*=` attempted at an anchored position:
leading whitespace (which, as in Python, may span newlines), then the core.
Returns the consumed length and the tag. -/
def tagLineMatchAt (s : List Char) : Option (Nat × List Char) :=
  match tagLineAfterWs (s.dropWhile pyIsSpace) with
  | some (tg, r4) => some (s.length - r4.length, tg)
  | none => none

/-- `INLINE_NAME_RE` after its leading `\s*`: tag, `=`, opening quote, lazy
content, closing quote validated by `\s*$`.  Returns tag, raw content and
the remainder after the closing quote. -/
def inlineAfterWs : List Char → Option (List Char × List Char × List Char)
  | a :: b :: c :: r2 =>
    if isUpper a && isUpper b && isUpper c then
      match r2.dropWhile pyIsSpace with
      | '=' :: r4 =>
        match r4.dropWhile pyIsSpace with
        | q :: r6 =>
          if isQuote q then
            match r6 with
            | c0 :: r7 =>
              if c0 = '\n' then none
              else
                match findCloseBy isQuote [c0] r7 with
                | some (content, rest) => some ([a, b, c], content, rest)
                | none => none
            | [] => none
          else none
        | _ => none
      | _ => none
    else none
  | _ => none

/-- `INLINE_NAME_RE = ^\s*([A-Z]{3})\s*=\s*["\'](.+?)["\']\s*$` attempted at
an anchored position.  Returns consumed length, tag and raw content. -/
def inlineMatchAt (s : List Char) : Option (Nat × List Char × List Char) :=
  match inlineAfterWs (s.dropWhile pyIsSpace) with
  | some (tg, content, rest) =>
      some (s.length - rest.length + tailConsumed rest, tg, content)
  | none => none

/-- Is `pos` a `re.MULTILINE` `^` anchor of `text`? -/
def anchorAt (text : List Char) (pos : Nat) : Prop :=
  pos = 0 ∨ text[pos - 1]? = some '\n'

instance (text : List Char) (pos : Nat) : Decidable (anchorAt text pos) := by
  unfold anchorAt; infer_instance

/-- `re.finditer` for a `^`-anchored multiline pattern whose anchored
behaviour is `M`: scan left to right, try `M` only at anchors, resume after
each match (advancing at least one character, as Python does).  Emits
(start, consumed, groups) triples. -/
def finditerAux {β : Type} (M : List Char → Option (Nat × β)) :
    Nat → List Char → Bool → Nat → List (Nat × Nat × β)
  | 0, _, _, _ => []
  | fuel + 1, s, anch, pos =>
    match s with
    | [] => []
    | c :: rest =>
      if anch then
        match M s with
        | some (k, g) =>
          let k' := max k 1
          (pos, k, g) ::
            finditerAux M fuel (s.drop k') (decide (s[k' - 1]? = some '\n')) (pos + k')
        | none => finditerAux M fuel rest (decide (c = '\n')) (pos + 1)
      else finditerAux M fuel rest (decide (c = '\n')) (pos + 1)

def finditer {β : Type} (M : List Char → Option (Nat × β)) (text : List Char) :
    List (Nat × Nat × β) :=
  finditerAux M (text.length + 1) text true 0

/-- `text[i:j]`. -/
def sub (text : List Char) (i j : Nat) : List Char := (text.take j).drop i

/-- One past the index of the last `'\n'` while scanning `l`; helper for
`lineStartAt`. -/
def lastNlP1 : List Char → Nat → Nat → Nat
  | [], _, best => best
  | c :: rest, i, best => lastNlP1 rest (i + 1) (if c = '\n' then i + 1 else best)

/-- `text.rfind('\n', 0, j) + 1`: start index of the line containing
position `j` (0 when no newline precedes). -/
def lineStartAt (text : List Char) (j : Nat) : Nat :=
  lastNlP1 (text.take j) 0 0

/-- Tail `\s*(.+)$` of the trailing-comment regex on a newline-free
fragment: fails on an empty remainder; the group is the remainder without
its leading whitespace, except that on an all-whitespace remainder the
greedy `\s*` backtracks one character so `.+` captures the last one. -/
def cmTail (l : List Char) : Option (List Char) :=
  match l with
  | [] => none
  | _ :: _ =>
    match l.dropWhile pyIsSpace with
    | [] => l.getLast?.map (fun c => [c])
    | g => some g

/-- Leftmost search of `[#/]{1,2}\s*(.+)$` on a newline-free fragment
(source line 78), returning group 1; the greedy `{1,2}` falls back to one
marker when two leave nothing for `.+`. -/
def cmSearch : List Char → Option (List Char)
  | [] => none
  | c :: rest =>
    if c = '#' || c = '/' then
      match rest with
      | d :: rest2 =>
        if d = '#' || d = '/' then
          match cmTail rest2 with
          | some g => some g
          | none =>
            match cmTail rest with
            | some g => some g
            | none => cmSearch rest
        else
          match cmTail rest with
          | some g => some g
          | none => cmSearch rest
      | [] => cmSearch rest
    else cmSearch rest

/-- Python truthiness of an optional string (`None` and `""` are falsy). -/
def pyTruthy : Option (List Char) → Bool
  | none => false
  | some s => !s.isEmpty

/-- Python `a or b` on optional strings. -/
def pyOr (a b : Option (List Char)) : Option (List Char) :=
  if pyTruthy a then a else b

/-- The pre-brace name candidate of a block match (source lines 74-88):
a `[#/]{1,2}…` comment on the brace's line before the brace, combined with a
full comment line immediately above via Python's `name_candidate or cname`. -/
def blockNameCandidate (text : List Char) (openPos : Nat) : Option (List Char) :=
  let lineStart := lineStartAt text openPos
  let nc : Option (List Char) := (cmSearch (sub text lineStart openPos)).map pyStrip
  if 2 ≤ lineStart then
    let prevLineEnd := lineStart - 1
    let prevLineStart := lineStartAt text (prevLineEnd - 1)
    let prevLine := pyStrip (sub text prevLineStart prevLineEnd)
    if prevLine.head? = some '#' || ['/', '/'].isPrefixOf prevLine then
      let cname := pyStrip (lstripAll '/' (lstripAll '#' prevLine))
      if cname.isEmpty then nc else pyOr nc (some cname)
    else nc
  else nc

/-- Brace matching (source lines 90-102): offset of the closing brace that
returns the depth to zero, `none` when the block is unterminated.  The depth
is an integer exactly as in the source. -/
def braceScanAux : List Char → Int → Nat → Option Nat
  | [], _, _ => none
  | c :: rest, depth, i =>
    if c = '\x7b' then braceScanAux rest (depth + 1) (i + 1)
    else if c = '\x7d' then
      if depth - 1 = 0 then some i else braceScanAux rest (depth - 1) (i + 1)
    else braceScanAux rest depth (i + 1)

def braceScan (s : List Char) : Option Nat := braceScanAux s 0 0

/-- DOTALL lazy content `(.+?)["\']`: up to the first quote character, which
may span newlines and has no further constraint after the close. -/
def dotallClose (acc : List Char) : List Char → Option (List Char)
  | [] => none
  | c :: rest => if isQuote c then some acc.reverse else dotallClose (c :: acc) rest

/-- One anchored attempt of `NAME_IN_BLOCK_RE = name\s*=\s*["\'](.+?)["\']`
(IGNORECASE, DOTALL). -/
def nameInBlockAt (s : List Char) : Option (List Char) :=
  match s with
  | n :: a :: m :: e :: r2 =>
    if n.toLower = 'n' && a.toLower = 'a' && m.toLower = 'm' && e.toLower = 'e' then
      match r2.dropWhile pyIsSpace with
      | '=' :: r3 =>
        match r3.dropWhile pyIsSpace with
        | q :: r4 =>
          if isQuote q then
            match r4 with
            | c0 :: r5 => dotallClose [c0] r5
            | [] => none
          else none
        | _ => none
      | _ => none
    else none
  | _ => none

/-- Leftmost `NAME_IN_BLOCK_RE.search`. -/
def nameInBlockSearch : List Char → Option (List Char)
  | [] => none
  | c :: rest =>
    match nameInBlockAt (c :: rest) with
    | some g => some g
    | none => nameInBlockSearch rest

/-- `str.replace('\n', ' ')`. -/
def replaceNlSp (s : List Char) : List Char := s.map (fun c => if c = '\n' then ' ' else c)

/-- `open_pos = idx + rest.find('{')` for `rest = text[idx:]`. -/
def openPosOf (text : List Char) (idx : Nat) : Nat :=
  idx + (text.drop idx).findIdx (fun c => c = '\x7b')

/-- The body of the block-scan loop for one `TAG_LINE_RE` match ending at
`idx` (source lines 66-123): inspect the first non-whitespace character
after the `=`; a non-brace yields a nameless occurrence; a brace resolves
the name as `name=` inside the block, else the block's first full-comment
line, else the pre-brace comment candidate; an unterminated block falls out
of the `if end_pos:` guard and contributes nothing. -/
def processTagMatch (text : List Char) (idx : Nat) (tag : List Char) :
    List (List Char × Option (List Char)) :=
  match (text.drop idx).dropWhile pyIsSpace with
  | [] => []
  | first :: _ =>
    if first ≠ '\x7b' then [(tag, none)]
    else
      let openPos := openPosOf text idx
      let nc := blockNameCandidate text openPos
      match braceScan (text.drop openPos) with
      | some endRel =>
        let block := sub text (openPos + 1) (openPos + endRel)
        match nameInBlockSearch block with
        | some nm => [(tag, some (replaceNlSp (pyStrip nm)))]
        | none =>
          let blockLines := ((pySplitlines block).map pyStrip).filter (fun l => !l.isEmpty)
          let viaComment : Option (List Char) :=
            match blockLines with
            | firstLn :: _ =>
              if firstLn.head? = some '#' || ['/', '/'].isPrefixOf firstLn then
                let cname := pyStrip (lstripAll '/' (lstripAll '#' firstLn))
                if cname.isEmpty then none else some cname
              else none
            | [] => none
          match viaComment with
          | some cname => [(tag, some cname)]
          | none => if pyTruthy nc then [(tag, nc)] else [(tag, none)]
      | none => []

/-- `find_tags_in_country_text` (source lines 55-124): the inline-assignment
scan followed by the block-assignment scan. -/
def find_tags_in_country_text (text : List Char) :
    List (List Char × Option (List Char)) :=
  ((finditer inlineMatchAt text).map fun m => (m.2.2.1, some (pyStrip m.2.2.2)))
  ++ ((finditer tagLineMatchAt text).flatMap fun m => processTagMatch text (m.1 + m.2.1) m.2.2)

/-- Lexicographic (code-point) comparison on character lists, Python's
string `<=`. -/
def strLeB : List Char → List Char → Bool
  | [], _ => true
  | _ :: _, [] => false
  | a :: as, b :: bs => if a = b then strLeB as bs else decide (a.toNat < b.toNat)

def strLe (a b : List Char) : Prop := strLeB a b = true

instance : DecidableRel strLe := fun a b => by unfold strLe; infer_instance

/-- Path order on (path, payload) pairs. -/
def pairLe {V : Type} (a b : List Char × V) : Prop := strLe a.1 b.1

instance {V : Type} : DecidableRel (pairLe (V := V)) := fun a b => by
  unfold pairLe; infer_instance

/-- Substring containment (Python `in` on strings). -/
def containsSub (needle : List Char) : List Char → Bool
  | [] => needle.isEmpty
  | c :: rest => needle.isPrefixOf (c :: rest) || containsSub needle rest

/-- `str.lower()` (ASCII). -/
def toLowerL (s : List Char) : List Char := s.map Char.toLower

/-- First-match association lookup (Python `dict` access / `.get`). -/
def lookupA {V : Type} (d : List (List Char × V)) (k : List Char) : Option V :=
  (d.find? fun p => decide (p.1 = k)).map fun p => p.2

/-- `dict.setdefault(k, v)`: first write per key wins, insertion order kept. -/
def setdefault {V : Type} (d : List (List Char × V)) (k : List Char) (v : V) :
    List (List Char × V) :=
  if (d.find? fun p => decide (p.1 = k)).isSome then d else d ++ [(k, v)]

/-- `occurrences.setdefault(tag, []).append(v)` on an insertion-ordered
dict. -/
def addOcc (d : List (List Char × List (List Char × Option (List Char))))
    (tag : List Char) (v : List Char × Option (List Char)) :
    List (List Char × List (List Char × Option (List Char))) :=
  match d with
  | [] => [(tag, [v])]
  | (t, es) :: rest =>
    if t = tag then (t, es ++ [v]) :: rest else (t, es) :: addOcc rest tag v

/-- The optional `(?:\: ?\d+|\:)?` of `LOCALE_LINE_RE` after the tag: a
colon with an optional single space and digits, else a bare colon, else
nothing.  When a colon alternative consumes, any later failure cannot be
rescued by backtracking into this group (the characters it would give back
can never start the following `\s*["\']`), so this deterministic greedy
reading is exact. -/
def colonPart : List Char → List Char
  | ':' :: rc =>
    match rc with
    | ' ' :: rc2 =>
      let d2 := rc2.takeWhile isDigitCh
      if d2.isEmpty then rc else rc2.drop d2.length
    | _ =>
      let d := rc.takeWhile isDigitCh
      if d.isEmpty then rc else rc.drop d.length
  | l => l

/-- `LOCALE_LINE_RE = ^\s*([A-Z]{3})\s*(?:\: ?\d+|\:)?\s*["\'](.+?)["\']\s*$`
attempted at an anchored position. -/
def localeLineMatchAt (s : List Char) : Option (Nat × List Char × List Char) :=
  match s.dropWhile pyIsSpace with
  | a :: b :: c :: r2 =>
    if isUpper a && isUpper b && isUpper c then
      match (colonPart (r2.dropWhile pyIsSpace)).dropWhile pyIsSpace with
      | q :: r6 =>
        if isQuote q then
          match r6 with
          | c0 :: r7 =>
            if c0 = '\n' then none
            else
              match findCloseBy isQuote [c0] r7 with
              | some (content, rest) =>
                  some (s.length - rest.length + tailConsumed rest, [a, b, c], content)
              | none => none
          | [] => none
        else none
      | _ => none
    else none
  | _ => none

/-- `LOCALE_ALT_RE = ^\s*([A-Z]{3})\s+"(.+?)"\s*$` attempted at an anchored
position. -/
def localeAltMatchAt (s : List Char) : Option (Nat × List Char × List Char) :=
  match s.dropWhile pyIsSpace with
  | a :: b :: c :: r2 =>
    if isUpper a && isUpper b && isUpper c then
      match r2 with
      | w :: _ =>
        if pyIsSpace w then
          match r2.dropWhile pyIsSpace with
          | '"' :: r6 =>
            match r6 with
            | c0 :: r7 =>
              if c0 = '\n' then none
              else
                match findCloseBy (fun ch => ch = '"') [c0] r7 with
                | some (content, rest) =>
                    some (s.length - rest.length + tailConsumed rest, [a, b, c], content)
                | none => none
            | [] => none
          | _ => none
        else none
      | [] => none
    else none
  | _ => none

/-- The per-file tag→name pairs the localization indexer extracts, in the
order `index_localization_files` inserts them: all `LOCALE_LINE_RE` matches,
then all `LOCALE_ALT_RE` matches (source lines 143-150). -/
def localePairsOfText (text : List Char) : List (List Char × List Char) :=
  ((finditer localeLineMatchAt text).map fun m => (m.2.2.1, pyStrip m.2.2.2))
  ++ ((finditer localeAltMatchAt text).map fun m => (m.2.2.1, pyStrip m.2.2.2))

/-- `index_localization_files` over the selected, ordered candidate file
list (path, text): first write per tag wins via `setdefault`; the nested
per-file loops are flattened into one pair stream, which folds
identically. -/
def index_localization_files (files : List (List Char × List Char)) :
    List (List Char × List Char) :=
  (files.flatMap fun f => localePairsOfText f.2).foldl
    (fun d p => setdefault d p.1 p.2) []

def COUNTRIES_DIR : List Char := str "in_game/setup/countries"

def OUTPUT_PATH : List Char := str "in_game/setup/countries/1444_tags.info"

/-- `os.path.basename` for forward-slash paths. -/
def basename (p : List Char) : List Char :=
  (p.reverse.takeWhile fun c => c ≠ '/').reverse

/-- Membership in `glob('in_game/setup/countries/*.txt')`: directly in the
directory, not a dotfile, extension `.txt`. -/
def isCountryFile (p : List Char) : Bool :=
  (COUNTRIES_DIR ++ ['/']).isPrefixOf p &&
  (let base := p.drop (COUNTRIES_DIR.length + 1)
   !base.contains '/' && !decide (base.head? = some '.') && (str ".txt").isSuffixOf base)

/-- The country files of the store, lexicographically path-sorted as
`sorted(glob(...))` yields them. -/
def selectCountryFiles (store : List (List Char × List Char)) :
    List (List Char × List Char) :=
  (store.filter fun f => isCountryFile f.1).insertionSort pairLe

/-- The localization-candidate heuristic (source lines 132-136): a
`localization` path segment (or the British spelling anywhere) in the
lowered path, plus one of the four plain-text extensions. -/
def isLocaleCandidate (p : List Char) : Bool :=
  (containsSub (str "/localization/") (toLowerL p) ||
   containsSub (str "\\localization\\") (toLowerL p) ||
   containsSub (str "localisation") (toLowerL p)) &&
  ((str ".yml").isSuffixOf (toLowerL p) || (str ".yaml").isSuffixOf (toLowerL p) ||
   (str ".txt").isSuffixOf (toLowerL p) || (str ".csv").isSuffixOf (toLowerL p))

/-- `sorted(set(candidates))` with their contents: the two glob roots of the
source both resolve inside the repository, so candidates are one pass over
the store, deduplicated and sorted. -/
def selectLocaleFiles (store : List (List Char × List Char)) :
    List (List Char × List Char) :=
  ((((store.map fun f => f.1).filter isLocaleCandidate).dedup).insertionSort strLe).filterMap
    fun p => (lookupA store p).map fun c => (p, c)

abbrev OccDict := List (List Char × List (List Char × Option (List Char)))

/-- The flat (tag, (file, candidate)) occurrence stream of `main`'s scan
loop (source lines 175-183), file by file in sorted order. -/
def occStream (files : List (List Char × List Char)) :
    List (List Char × (List Char × Option (List Char))) :=
  files.flatMap fun f =>
    if basename f.1 = basename OUTPUT_PATH then []
    else (find_tags_in_country_text (strip_inline_comments f.2)).map
      fun occ => (occ.1, (f.1, occ.2))

/-- The `occurrences` dict of `main`: insertion-ordered grouping of the
stream. -/
def mainOccurrences (files : List (List Char × List Char)) : OccDict :=
  (occStream files).foldl (fun d e => addOcc d e.1 e.2) []

/-- The per-tag choice of source lines 188-192: first truthy candidate in
scan order. -/
def chooseName : List (List Char × Option (List Char)) → Option (List Char)
  | [] => none
  | (_, n) :: rest => if pyTruthy n then n else chooseName rest

/-- `tag_map` right after the choice loop (source lines 186-193). -/
def tagMapInit (d : OccDict) : List (List Char × Option (List Char)) :=
  d.map fun p => (p.1, chooseName p.2)

/-- The localization fallback loop (source lines 196-201): a tag keeps its
name when truthy, otherwise takes the localization name when that is
truthy. -/
def applyLocales (locs : List (List Char × List Char))
    (tm : List (List Char × Option (List Char))) :
    List (List Char × Option (List Char)) :=
  tm.map fun p =>
    (p.1,
      if pyTruthy p.2 then p.2
      else
        match lookupA locs p.1 with
        | some l => if l.isEmpty then p.2 else some l
        | none => p.2)

/-- The final tag-itself fallback loop (source lines 204-206). -/
def applyTagFallback (tm : List (List Char × Option (List Char))) :
    List (List Char × Option (List Char)) :=
  tm.map fun p => (p.1, if pyTruthy p.2 then p.2 else some p.1)

/-- `name = tag_map[tag] or tag` (source line 158). -/
def writtenName (tm : List (List Char × Option (List Char))) (t : List Char) : List Char :=
  match lookupA tm t with
  | some (some v) => if v.isEmpty then t else v
  | _ => t

/-- The ordered (tag, written name) pairs of `write_tags_file`. -/
def registryPairs (tm : List (List Char × Option (List Char))) :
    List (List Char × List Char) :=
  ((tm.map fun p => p.1).insertionSort strLe).map fun t => (t, writtenName tm t)

/-- The exact text `write_tags_file` writes (source lines 154-163): a fixed
header, a blank line, one `TAG - Name` line per tag in sorted order. -/
def write_tags_file_content (tm : List (List Char × Option (List Char))) : List Char :=
  List.intercalate ['\n']
    ([str "All modded tags added to setup in alphabetical order:", []]
      ++ (registryPairs tm).map fun p => p.1 ++ str " - " ++ p.2)
  ++ ['\n']

/-- The resolved tag map of one `main` run over a file store. -/
def mainTagMap (store : List (List Char × List Char)) :
    List (List Char × Option (List Char)) :=
  applyTagFallback
    (applyLocales (index_localization_files (selectLocaleFiles store))
      (tagMapInit (mainOccurrences (selectCountryFiles store))))

/-- The registry text one `main` run writes at `OUTPUT_PATH`. -/
def generate (store : List (List Char × List Char)) : List Char :=
  write_tags_file_content (mainTagMap store)

/-- The duplicates report of source lines 213-223, in printed (tag-sorted)
order, each tag with its sorted distinct file list; `os.path.relpath` on
the tool's already-relative paths is the identity. -/
def dupReportOf (store : List (List Char × List Char)) :
    List (List Char × List (List Char)) :=
  let occ := mainOccurrences (selectCountryFiles store)
  let dups := occ.filter fun p => 1 < p.2.length
  ((dups.map fun p => p.1).insertionSort strLe).map fun t =>
    (t, ((((lookupA dups t).getD []).map fun e => e.1).dedup).insertionSort strLe)

/-- Writing a file into the store (`os.replace` semantics). -/
def setStore (store : List (List Char × List Char)) (p c : List Char) :
    List (List Char × List Char) :=
  (p, c) :: store.filter fun q => decide (q.1 ≠ p)

/-! ### The log-driven tag-removal tool (`cleanup_invalid_tags.py`) -/

def needleCDE : List Char := str "CountryDoesNotExist"

/-- `\b` after a tag: next character absent or not a word character. -/
def boundaryOk (l : List Char) : Bool :=
  match l.head? with
  | none => true
  | some c => !wordChar c

/-- `.*CountryDoesNotExist`: the literal occurs before the next newline. -/
def restHasNeedle (l : List Char) : Bool :=
  containsSub needleCDE (l.takeWhile fun c => c ≠ '\n')

/-- One anchored attempt of `\]:\s*([A-Z]{2,3})\b.*CountryDoesNotExist`
(source line 24); the greedy `{2,3}` tries three capitals before two. -/
def orgMatchAt (s : List Char) : Option (List Char) :=
  match s with
  | ']' :: ':' :: r1 =>
    match r1.dropWhile pyIsSpace with
    | a :: b :: rest2 =>
      if isUpper a && isUpper b then
        let two : Option (List Char) :=
          if boundaryOk rest2 && restHasNeedle rest2 then some [a, b] else none
        match rest2 with
        | c :: rest3 =>
          if isUpper c && boundaryOk rest3 && restHasNeedle rest3 then some [a, b, c]
          else two
        | [] => two
      else none
    | _ => none
  | _ => none

/-- Leftmost `search` of the organization-log pattern. -/
def orgSearch : List Char → Option (List Char)
  | [] => none
  | c :: rest =>
    match orgMatchAt (c :: rest) with
    | some g => some g
    | none => orgSearch rest

/-- Insertion into the insertion-ordered model of a Python `set` of
strings. -/
def insertNewStr (acc : List (List Char)) (t : List Char) : List (List Char) :=
  if acc.contains t then acc else acc ++ [t]

/-- `extract_tags_from_log` (source lines 19-36): for each line containing
`CountryDoesNotExist`, the pattern's first match contributes its tag.  The
Python `set` is modelled as an insertion-ordered duplicate-free list (every
downstream use is order-insensitive or sorts first). -/
def extract_tags_from_log (log : List Char) : List (List Char) :=
  (pySplitlines log).foldl
    (fun acc line =>
      if containsSub needleCDE line then
        match orgSearch line with
        | some t => insertNewStr acc t
        | none => acc
      else acc) []

def depNeedle : List Char := str "Dependency with non-existent"

/-- One anchored attempt of
`Dependency with non-existent (?:subject|overlord)[^\(]*\(([A-Z]{2,3})\)`
(source line 45): the alternation is tried in order, `[^\(]*` runs to the
first parenthesis, and the greedy `{2,3}` tries three capitals before
two. -/
def depMatchAt (s : List Char) : Option (List Char) :=
  if (depNeedle ++ [' ']).isPrefixOf s then
    let r0 := s.drop (depNeedle.length + 1)
    let r1 : Option (List Char) :=
      if (str "subject").isPrefixOf r0 then some (r0.drop 7)
      else if (str "overlord").isPrefixOf r0 then some (r0.drop 8)
      else none
    match r1 with
    | none => none
    | some r2 =>
      match r2.dropWhile (fun c => c ≠ '(') with
      | '(' :: r4 =>
        match r4 with
        | a :: b :: r5 =>
          if isUpper a && isUpper b then
            match r5 with
            | c :: r6 =>
              if isUpper c && r6.head? = some ')' then some [a, b, c]
              else if c = ')' then some [a, b]
              else none
            | [] => none
          else none
        | _ => none
      | _ => none
  else none

/-- Leftmost `search` of the dependency-log pattern. -/
def depSearch : List Char → Option (List Char)
  | [] => none
  | c :: rest =>
    match depMatchAt (c :: rest) with
    | some g => some g
    | none => depSearch rest

/-- `extract_dependency_tags_from_log` (source lines 39-57). -/
def extract_dependency_tags_from_log (log : List Char) : List (List Char) :=
  (pySplitlines log).foldl
    (fun acc line =>
      if containsSub depNeedle line then
        match depSearch line with
        | some t => insertNewStr acc t
        | none => acc
      else acc) []

/-- Python `str.count` (non-overlapping substring count), fueled. -/
def countSub (needle : List Char) : Nat → List Char → Nat
  | 0, _ => 0
  | _, [] => 0
  | fuel + 1, c :: rest =>
    if !needle.isEmpty && needle.isPrefixOf (c :: rest) then
      1 + countSub needle fuel ((c :: rest).drop needle.length)
    else countSub needle fuel rest

def pyCount (needle s : List Char) : Nat := countSub needle (s.length + 1) s

/-- Whole-word occurrence of `tag` at the head of `s`, given the preceding
character `prev` (the tags are word characters throughout, so `\b` reduces
to these two sides). -/
def wordHit (tag : List Char) (prev : Option Char) (s : List Char) : Bool :=
  (match prev with | none => true | some pc => !wordChar pc) &&
  tag.isPrefixOf s &&
  (match (s.drop tag.length).head? with | none => true | some nc => !wordChar nc)

/-- `re.sub(r"\b"+tag+r"\b", "", data)`, fueled scan. -/
def subWordAux (tag : List Char) : Nat → Option Char → List Char → List Char
  | 0, _, s => s
  | fuel + 1, prev, s =>
    match s with
    | [] => []
    | c :: rest =>
      if wordHit tag prev s then subWordAux tag fuel tag.getLast? (s.drop tag.length)
      else c :: subWordAux tag fuel (some c) rest

def subWord (tag data : List Char) : List Char := subWordAux tag (data.length + 1) none data

/-- `re.search(r"\b"+tag+r"\b", line)` as a Boolean. -/
def containsWordAux (tag : List Char) (prev : Option Char) : List Char → Bool
  | [] => false
  | c :: rest => wordHit tag prev (c :: rest) || containsWordAux tag (some c) rest

def containsWord (tag line : List Char) : Bool := containsWordAux tag none line

/-- `readlines`: split after each newline, keeping the terminators. -/
def splitKeepNlAux : List Char → List Char → List (List Char)
  | [], cur => if cur.isEmpty then [] else [cur.reverse]
  | '\n' :: rest, cur => ('\n' :: cur).reverse :: splitKeepNlAux rest []
  | c :: rest, cur => splitKeepNlAux rest (c :: cur)

def splitKeepNl (s : List Char) : List (List Char) := splitKeepNlAux s []

/-- `count_tag_occurrences_in_file` (source lines 60-66). -/
def count_tag_occurrences_in_file (data : List Char) (tags : List (List Char)) : Nat :=
  (tags.map fun t => pyCount t data).sum

/-- `count_lines_with_tags_in_file` (source lines 69-81). -/
def count_lines_with_tags_in_file (data : List Char) (tags : List (List Char)) : Nat :=
  ((splitKeepNl data).filter fun line => tags.any fun t => containsWord t line).length

/-- `remove_lines_containing_tags` (source lines 84-113): removed-line count
and resulting content. -/
def remove_lines_containing_tags (data : List Char) (tags : List (List Char)) :
    Nat × List Char :=
  let lines := splitKeepNl data
  let keep := lines.filter fun line => !(tags.any fun t => containsWord t line)
  (lines.length - keep.length, keep.flatten)

/-- `sorted(tags, key=lambda s: (-len(s), s))` (source line 130). -/
def remKeyLe (a b : List Char) : Prop :=
  b.length < a.length ∨ (a.length = b.length ∧ strLe a b)

instance : DecidableRel remKeyLe := fun a b => by unfold remKeyLe; infer_instance

/-- The text rewriting of `remove_tags_from_file` (source lines 127-131). -/
def remove_tags_from_file_data (data : List Char) (tags : List (List Char)) : List Char :=
  (tags.insertionSort remKeyLe).foldl (fun d t => subWord t d) data

/-- Console output of `cleanup_invalid_tags.main`, abstracted to message
constructors carrying the printed data. -/
inductive CleanupMsg : Type
  | noTags : CleanupMsg
  | foundOrg : Nat → List (List Char) → CleanupMsg
  | foundDep : Nat → List (List Char) → CleanupMsg
  | dryRunNotice : CleanupMsg
  | dryRunOrgCount : Nat → CleanupMsg
  | dryRunDipCount : Nat → CleanupMsg
  | removedOrg : Nat → CleanupMsg
  | removedDip : Nat → CleanupMsg
  | backupCreated : CleanupMsg
deriving DecidableEq

/-- Outcome of one `cleanup_invalid_tags.main` run: printed messages in
order, final contents of the two target files, whether a backup of each was
created. -/
structure CleanupResult : Type where
  printed : List CleanupMsg
  org : List Char
  dip : List Char
  orgBackup : Bool
  dipBackup : Bool
deriving DecidableEq

/-- The `main` control flow of `cleanup_invalid_tags.py` (source lines
147-199) as a function of the log text, the two target files' contents and
the flags.  The second `if args.dry_run:` block (source lines 183-189, the
one that computes and prints the would-remove counts) sits after the first
`if args.dry_run: … return` (lines 175-177) and is therefore unreachable;
it contributes nothing here. -/
def cleanup_main (log orgText dipText : List Char) (dryRun noBackup : Bool) :
    CleanupResult :=
  let tags := extract_tags_from_log log
  let depTags := extract_dependency_tags_from_log log
  if tags.isEmpty && depTags.isEmpty then
    ⟨[.noTags], orgText, dipText, false, false⟩
  else
    let found := [CleanupMsg.foundOrg tags.length (tags.insertionSort strLe),
                  CleanupMsg.foundDep depTags.length (depTags.insertionSort strLe)]
    if dryRun then
      ⟨found ++ [.dryRunNotice], orgText, dipText, false, false⟩
    else
      let orgStep : Nat × List Char × Bool :=
        if tags.isEmpty then (0, orgText, false)
        else
          let data := remove_tags_from_file_data orgText tags
          ((tags.map fun t => pyCount t orgText - pyCount t data).sum, data, !noBackup)
      let dl := remove_lines_containing_tags dipText depTags
      let dipStep : Nat × List Char × Bool :=
        if dl.1 = 0 then (0, dipText, false) else (dl.1, dl.2, !noBackup)
      ⟨found ++ [.removedOrg orgStep.1]
         ++ (if orgStep.2.2 then [.backupCreated] else [])
         ++ [.removedDip dipStep.1]
         ++ (if dipStep.2.2 then [.backupCreated] else []),
       orgStep.2.1, dipStep.2.1, orgStep.2.2, dipStep.2.2⟩

/-! ### Reference resolution order as the specification words it -/

/-- The three-tier resolution of §4.5 as the specification words it: the
first non-absent (truthy) candidate among the tag's occurrences, else the
localization name when truthy, else the tag itself. -/
def specResolvedName (cands : List (Option (List Char))) (loc : Option (List Char))
    (tag : List Char) : List Char :=
  match cands.find? pyTruthy with
  | some (some v) => v
  | _ =>
    match loc with
    | some l => if l.isEmpty then tag else l
    | none => tag

/-! ### Concrete corpora used by counterexamples and witnesses -/

/-- A block with both a preceding full-line comment and a `name=` key. -/
def blockBothText : List Char :=
  str "# Kingdom of Example\nABC = \x7b\nname = \"Other\"\n\x7d\n"

/-- The same block with the `name=` key removed. -/
def blockCommentOnlyText : List Char :=
  str "# Kingdom of Example\nABC = \x7b\ncolor = x\n\x7d\n"

/-- A block whose opening brace is never closed. -/
def unterminatedText : List Char := str "ABC = \x7b\nfoo = bar\n"

/-- A single-file store whose one tag assignment is inline. -/
def inlineStore : List (List Char × List Char) :=
  [(str "in_game/setup/countries/a.txt", str "ABC = \"Name\"\n")]

/-- A store with a trailing `ZZZ =` and nothing after it. -/
def trailingStore : List (List Char × List Char) :=
  [(str "in_game/setup/countries/a.txt", str "ZZZ =")]

/-- A store exercising block, inline and localization resolution at once. -/
def mixedStore : List (List Char × List Char) :=
  [(str "in_game/setup/countries/a.txt",
    str "GRF = \x7b color = \x7b1 2 3\x7d \x7d\nZZZ = x\nBBB = \x7b\nname = \"Beta\"\n\x7d\n"),
   (str "main_menu/localization/tags.yml", str "GRF: \"Great Republic\"\n")]

/-- A log with one organization tag and one dependency tag. -/
def logEx0 : List Char :=
  str "[x.cpp:1]: GRF bad (CountryDoesNotExist)\n[y]: Dependency with non-existent subject (CWM)\n"

def orgEx0 : List Char := str "GRF ABC GRF"

def dipEx0 : List Char := str "a CWM b\nno tag\n"

/-! ## Helper lemmas -/

/-- A text holding, at a line start, an inline assignment line of the exact
shape `TAG = "Name"`: optional leading whitespace, three capitals, `=`, a
quoted name, optional trailing line whitespace, then the rest of the text. -/
def inlineLineText (before wsA wsB wsC wsD content after : List Char)
    (a b c q1 q2 : Char) : List Char :=
  before ++ (wsA ++ a :: b :: c :: (wsB ++ '=' :: (wsC ++ q1 :: (content ++ q2 :: (wsD ++ after)))))

theorem strLeB_trans (a : List Char) :
    ∀ b c, strLeB a b = true → strLeB b c = true → strLeB a c = true := by
  induction a with
  | nil => intro b c _ _; rfl
  | cons x xs ih =>
    intro b c h1 h2
    cases b with
    | nil => simp [strLeB] at h1
    | cons y ys =>
      cases c with
      | nil => simp [strLeB] at h2
      | cons z zs =>
        simp only [strLeB] at h1 h2 ⊢
        by_cases hxy : x = y
        · subst hxy
          by_cases hyz : x = z
          · subst hyz
            rw [if_pos rfl] at h1 h2 ⊢
            exact ih ys zs h1 h2
          · rw [if_pos rfl] at h1
            rw [if_neg hyz] at h2 ⊢
            exact h2
        · by_cases hyz : y = z
          · subst hyz
            rw [if_neg hxy] at h1 ⊢
            exact h1
          · rw [if_neg hxy] at h1
            rw [if_neg hyz] at h2
            have v1 : x.toNat < y.toNat := of_decide_eq_true h1
            have v2 : y.toNat < z.toNat := of_decide_eq_true h2
            have hxz : x ≠ z := by
              intro he
              subst he
              omega
            rw [if_neg hxz]
            exact decide_eq_true (by omega)

theorem strLeB_total (a : List Char) : ∀ b, strLeB a b = true ∨ strLeB b a = true := by
  induction a with
  | nil => intro b; left; rfl
  | cons x xs ih =>
    intro b
    cases b with
    | nil => right; rfl
    | cons y ys =>
      simp only [strLeB]
      by_cases hxy : x = y
      · subst hxy
        rw [if_pos rfl, if_pos rfl]
        exact ih ys
      · rw [if_neg hxy, if_neg (Ne.symm hxy)]
        have hne : x.toNat ≠ y.toNat := by
          intro he
          exact hxy (Char.eq_of_val_eq (UInt32.ext he))
        rcases Nat.lt_or_ge x.toNat y.toNat with h | h
        · left; exact decide_eq_true h
        · right; exact decide_eq_true (by omega)

instance : IsTrans (List Char) strLe := ⟨fun a b c => strLeB_trans a b c⟩

instance : IsTotal (List Char) strLe := ⟨fun a b => strLeB_total a b⟩

theorem find?_append_or {α : Type} (p : α → Bool) (l1 l2 : List α) :
    List.find? p (l1 ++ l2)
      = match List.find? p l1 with
        | some x => some x
        | none => List.find? p l2 := by
  induction l1 with
  | nil => rfl
  | cons x xs ih =>
    simp only [List.cons_append, List.find?]
    cases hp : p x
    · simpa [hp] using ih
    · simp [hp]

theorem filter_map_pair {α β : Type} (p : β → Bool) (f : α → β) (l : List α) :
    (l.map f).filter p = (l.filter fun a => p (f a)).map f := by
  induction l with
  | nil => rfl
  | cons x xs ih =>
    simp only [List.map_cons, List.filter_cons]
    cases hp : p (f x)
    · simp [hp, ih]
    · simp [hp, ih]

theorem filter_eq_singleton_of_nodup (l : List (List Char)) (t : List Char)
    (hnd : l.Nodup) (hm : t ∈ l) :
    l.filter (fun x => decide (x = t)) = [t] := by
  induction l with
  | nil => cases hm
  | cons x xs ih =>
    rw [List.filter_cons]
    rcases List.mem_cons.mp hm with rfl | hmem
    · rw [if_pos (by simp)]
      have hx : t ∉ xs := (List.nodup_cons.mp hnd).1
      have hnil : xs.filter (fun y => decide (y = t)) = [] := by
        rw [List.filter_eq_nil_iff]
        intro a ha hpa
        exact hx ((of_decide_eq_true hpa) ▸ ha)
      rw [hnil]
    · have hx : x ≠ t := by
        intro he
        subst he
        exact (List.nodup_cons.mp hnd).1 hmem
      rw [if_neg (by simpa using hx)]
      exact ih (List.nodup_cons.mp hnd).2 hmem

theorem find?_map_keyfix {V W : Type} (g : List Char × V → List Char × W)
    (hg : ∀ p, (g p).1 = p.1) (l : List (List Char × V)) (k : List Char) :
    ((l.map g).find? fun p => decide (p.1 = k))
      = (l.find? fun p => decide (p.1 = k)).map g := by
  induction l with
  | nil => rfl
  | cons x xs ih =>
    rw [List.map_cons, List.find?_cons, List.find?_cons]
    by_cases h : x.1 = k
    · simp [hg, h]
    · simp only [hg, h, decide_eq_true_eq]
      simpa [h] using ih

theorem lookupA_map {V W : Type} (g : List Char × V → W) (l : List (List Char × V)) (k : List Char) :
    lookupA (l.map fun p => (p.1, g p)) k
      = (l.find? fun p => decide (p.1 = k)).map g := by
  unfold lookupA
  rw [find?_map_keyfix (fun p => (p.1, g p)) (fun p => rfl)]
  cases l.find? fun p => decide (p.1 = k) <;> rfl

theorem find?_key_eq {V : Type} {l : List (List Char × V)} {k : List Char} {q : List Char × V}
    (h : (l.find? fun p => decide (p.1 = k)) = some q) : q.1 = k := by
  have := List.find?_some h
  simpa using this

theorem find?_of_mem_keys {V : Type} (l : List (List Char × V)) (k : List Char)
    (h : k ∈ l.map fun p => p.1) :
    ∃ v, (l.find? fun p => decide (p.1 = k)) = some (k, v) := by
  induction l with
  | nil => simp at h
  | cons x xs ih =>
    rw [List.find?_cons]
    by_cases hx : x.1 = k
    · exact ⟨x.2, by simp [hx, Prod.ext_iff]⟩
    · simp only [show decide (x.1 = k) = false by simp [hx]]
      apply ih
      rw [List.map_cons] at h
      rcases List.mem_cons.mp h with h1 | h1
      · exact absurd h1.symm hx
      · exact h1

theorem find?_none_of_not_mem_keys {V : Type} (l : List (List Char × V)) (k : List Char)
    (h : k ∉ l.map fun p => p.1) :
    (l.find? fun p => decide (p.1 = k)) = none := by
  rw [List.find?_eq_none]
  intro x hx hp
  exact h (List.mem_map.mpr ⟨x, hx, of_decide_eq_true hp⟩)

theorem addOcc_keys (d : OccDict) (t : List Char) (v : List Char × Option (List Char)) :
    (addOcc d t v).map (fun p => p.1)
      = if t ∈ d.map (fun p => p.1) then d.map (fun p => p.1)
        else d.map (fun p => p.1) ++ [t] := by
  induction d with
  | nil => simp [addOcc]
  | cons x xs ih =>
    obtain ⟨xt, xes⟩ := x
    simp only [addOcc]
    by_cases hx : xt = t
    · subst hx
      have hmem : xt ∈ List.map (fun p => p.1) ((xt, xes) :: xs) := by simp
      rw [if_pos hmem, if_pos rfl]
      rfl
    · rw [if_neg hx]
      simp only [List.map_cons, ih]
      by_cases hm : t ∈ xs.map fun p => p.1
      · rw [if_pos hm, if_pos (by simp [hm])]
      · rw [if_neg hm, if_neg (by simp [hm, Ne.symm hx])]
        rfl

theorem addOcc_keys_nodup (d : OccDict) (t : List Char) (v : List Char × Option (List Char))
    (h : (d.map fun p => p.1).Nodup) :
    ((addOcc d t v).map fun p => p.1).Nodup := by
  rw [addOcc_keys]
  split
  · exact h
  · rename_i hmem
    rw [List.nodup_append]
    exact ⟨h, List.nodup_singleton t, by simpa [List.disjoint_singleton] using hmem⟩

theorem foldl_addOcc_keys_nodup
    (flat : List (List Char × (List Char × Option (List Char)))) :
    ∀ d : OccDict, (d.map fun p => p.1).Nodup →
      ((flat.foldl (fun d e => addOcc d e.1 e.2) d).map fun p => p.1).Nodup := by
  induction flat with
  | nil => intro d h; exact h
  | cons e es ih => intro d h; exact ih _ (addOcc_keys_nodup _ _ _ h)

theorem mainOccurrences_keys_nodup (files : List (List Char × List Char)) :
    ((mainOccurrences files).map fun p => p.1).Nodup :=
  foldl_addOcc_keys_nodup _ [] (by simp)

theorem foldl_addOcc_keys_sub
    (flat : List (List Char × (List Char × Option (List Char)))) :
    ∀ (d : OccDict) (k : List Char),
      k ∈ ((flat.foldl (fun d e => addOcc d e.1 e.2) d).map fun p => p.1) →
      k ∈ (d.map fun p => p.1) ∨ k ∈ flat.map fun e => e.1 := by
  induction flat with
  | nil => intro d k h; left; exact h
  | cons e es ih =>
    intro d k h
    rcases ih _ k h with h1 | h1
    · rw [addOcc_keys] at h1
      split at h1
      · left; exact h1
      · rcases List.mem_append.mp h1 with h2 | h2
        · left; exact h2
        · right; exact List.mem_cons.mpr (Or.inl (by simpa using h2))
    · right; exact List.mem_cons.mpr (Or.inr h1)

theorem chooseName_eq_find (es : List (List Char × Option (List Char))) :
    chooseName es
      = match (es.map fun e => e.2).find? pyTruthy with
        | some n => n
        | none => none := by
  induction es with
  | nil => rfl
  | cons e rest ih =>
    obtain ⟨p, n⟩ := e
    rw [List.map_cons, List.find?_cons]
    cases ht : pyTruthy n
    · simpa [chooseName, ht] using ih
    · simp [chooseName, ht]

theorem chooseName_not_truthy (es : List (List Char × Option (List Char)))
    (h : pyTruthy (chooseName es) = false) : chooseName es = none := by
  rw [chooseName_eq_find] at h ⊢
  cases hf : (es.map fun e => e.2).find? pyTruthy with
  | none => rfl
  | some n =>
    rw [hf] at h
    have ht := List.find?_some hf
    simp [ht] at h

theorem isCountryFile_out : isCountryFile OUTPUT_PATH = false := by decide

theorem isLocaleCandidate_out : isLocaleCandidate OUTPUT_PATH = false := by decide

theorem filter_setStore (p : List Char → Bool) (store : List (List Char × List Char))
    (c : List Char) (hp : p OUTPUT_PATH = false) :
    (setStore store OUTPUT_PATH c).filter (fun f => p f.1)
      = store.filter fun f => p f.1 := by
  unfold setStore
  rw [List.filter_cons]
  simp only [hp, if_false, Bool.false_eq_true, reduceIte]
  rw [List.filter_filter]
  apply List.filter_congr
  intro a _
  cases hpa : p a.1
  · simp
  · have hane : a.1 ≠ OUTPUT_PATH := by
      intro he
      rw [he, hp] at hpa
      cases hpa
    simp [hane]

theorem selectCountry_setStore (store : List (List Char × List Char)) (c : List Char) :
    selectCountryFiles (setStore store OUTPUT_PATH c) = selectCountryFiles store := by
  unfold selectCountryFiles
  rw [filter_setStore _ _ _ isCountryFile_out]

theorem lookupA_setStore_ne (store : List (List Char × List Char)) (c p : List Char)
    (hp : p ≠ OUTPUT_PATH) :
    lookupA (setStore store OUTPUT_PATH c) p = lookupA store p := by
  unfold setStore lookupA
  rw [List.find?_cons]
  simp only [show decide ((OUTPUT_PATH, c).1 = p) = false by simp [Ne.symm hp]]
  congr 1
  induction store with
  | nil => rfl
  | cons x xs ih =>
    rw [List.filter_cons]
    by_cases hx : x.1 = OUTPUT_PATH
    · simp only [show decide (x.1 ≠ OUTPUT_PATH) = false by simp [hx], Bool.false_eq_true,
        reduceIte]
      rw [List.find?_cons]
      simp only [show decide (x.1 = p) = false by rw [hx]; simp [Ne.symm hp]]
      exact ih
    · simp only [show decide (x.1 ≠ OUTPUT_PATH) = true by simp [hx], reduceIte]
      rw [List.find?_cons, List.find?_cons]
      cases hxp : decide (x.1 = p)
      · exact ih
      · rfl

theorem selectLocaleFiles_setStore (store : List (List Char × List Char)) (c : List Char) :
    selectLocaleFiles (setStore store OUTPUT_PATH c) = selectLocaleFiles store := by
  unfold selectLocaleFiles
  have hpaths : ((setStore store OUTPUT_PATH c).map fun f => f.1).filter isLocaleCandidate
      = (store.map fun f => f.1).filter isLocaleCandidate := by
    unfold setStore
    rw [List.map_cons, List.filter_cons]
    simp only [isLocaleCandidate_out, Bool.false_eq_true, reduceIte]
    rw [← filter_map_pair (fun a => decide (a ≠ OUTPUT_PATH)) (fun f => f.1) store]
    rw [List.filter_filter]
    apply List.filter_congr
    intro a _
    cases hpa : isLocaleCandidate a
    · simp
    · have hane : a ≠ OUTPUT_PATH := by
        intro he
        rw [he, isLocaleCandidate_out] at hpa
        cases hpa
      simp [hane]
  rw [hpaths]
  apply List.filterMap_congr
  intro p hp
  have hploc : isLocaleCandidate p = true := by
    have h1 : p ∈ ((store.map fun f => f.1).filter isLocaleCandidate).dedup :=
      (List.perm_insertionSort _ _).mem_iff.mp hp
    exact List.of_mem_filter (List.mem_dedup.mp h1)
  have hpne : p ≠ OUTPUT_PATH := by
    intro he
    rw [he, isLocaleCandidate_out] at hploc
    cases hploc
  rw [lookupA_setStore_ne store c p hpne]

theorem finditerAux_groups {β : Type} (M : List Char → Option (Nat × β)) (P : β → Prop)
    (hM : ∀ s k g, M s = some (k, g) → P g) :
    ∀ (fuel : Nat) (s : List Char) (anch : Bool) (pos : Nat),
      ∀ m ∈ finditerAux M fuel s anch pos, P m.2.2 := by
  intro fuel
  induction fuel with
  | zero => intro s anch pos m hm; cases hm
  | succ n ih =>
    intro s anch pos m hm
    cases s with
    | nil => cases hm
    | cons c rest =>
      simp only [finditerAux] at hm
      by_cases ha : anch = true
      · rw [if_pos ha] at hm
        cases hMv : M (c :: rest) with
        | none => rw [hMv] at hm; exact ih _ _ _ m hm
        | some kg =>
          obtain ⟨k, g⟩ := kg
          rw [hMv] at hm
          rcases List.mem_cons.mp hm with rfl | hm2
          · exact hM _ _ _ hMv
          · exact ih _ _ _ m hm2
      · rw [if_neg ha] at hm
        exact ih _ _ _ m hm

theorem tagLineAfterWs_group (r tg r4 : List Char)
    (h : tagLineAfterWs r = some (tg, r4)) : tg.length = 3 := by
  unfold tagLineAfterWs at h
  repeat' (split at h <;> try exact Option.noConfusion h)
  simp only [Option.some.injEq, Prod.mk.injEq] at h
  rw [← h.1]
  rfl

theorem tagLineMatchAt_group_len (s : List Char) (k : Nat) (g : List Char)
    (h : tagLineMatchAt s = some (k, g)) : g.length = 3 := by
  unfold tagLineMatchAt at h
  split at h
  · rename_i x tg r4 heq
    simp only [Option.some.injEq, Prod.mk.injEq] at h
    rw [← h.2]
    exact tagLineAfterWs_group _ _ _ heq
  · exact Option.noConfusion h

theorem inlineAfterWs_group (r tg content rest : List Char)
    (h : inlineAfterWs r = some (tg, content, rest)) : tg.length = 3 := by
  unfold inlineAfterWs at h
  repeat' (split at h <;> try exact Option.noConfusion h)
  simp only [Option.some.injEq, Prod.mk.injEq] at h
  rw [← h.1]
  rfl

theorem inlineMatchAt_group_len (s : List Char) (k : Nat) (g : List Char × List Char)
    (h : inlineMatchAt s = some (k, g)) : g.1.length = 3 := by
  unfold inlineMatchAt at h
  split at h
  · rename_i x tg content rest heq
    simp only [Option.some.injEq, Prod.mk.injEq] at h
    rw [← h.2]
    exact inlineAfterWs_group _ _ _ _ heq
  · exact Option.noConfusion h

theorem processTagMatch_fst (text : List Char) (idx : Nat) (tag : List Char) :
    ∀ occ ∈ processTagMatch text idx tag, occ.1 = tag := by
  intro occ hocc
  simp only [processTagMatch] at hocc
  split at hocc
  · cases hocc
  · split at hocc
    · rw [List.mem_singleton] at hocc; rw [hocc]
    · split at hocc
      · split at hocc
        · rw [List.mem_singleton] at hocc; rw [hocc]
        · split at hocc
          · rw [List.mem_singleton] at hocc; rw [hocc]
          · split at hocc
            · rw [List.mem_singleton] at hocc; rw [hocc]
            · rw [List.mem_singleton] at hocc; rw [hocc]
      · cases hocc

theorem find_tags_fst_len (text : List Char) :
    ∀ occ ∈ find_tags_in_country_text text, occ.1.length = 3 := by
  intro occ hocc
  unfold find_tags_in_country_text at hocc
  rcases List.mem_append.mp hocc with h | h
  · obtain ⟨m, hm, he⟩ := List.mem_map.mp h
    have h3 := finditerAux_groups inlineMatchAt (fun g => g.1.length = 3)
        (fun s k g hg => inlineMatchAt_group_len s k g hg) _ _ _ _ m hm
    rw [← he]
    exact h3
  · obtain ⟨m, hm, he⟩ := List.mem_flatMap.mp h
    have htag := processTagMatch_fst text (m.1 + m.2.1) m.2.2 occ he
    have h3 := finditerAux_groups tagLineMatchAt (fun g => g.length = 3)
        (fun s k g hg => tagLineMatchAt_group_len s k g hg) _ _ _ _ m hm
    rw [htag]
    exact h3

theorem occStream_fst_len (files : List (List Char × List Char)) :
    ∀ e ∈ occStream files, e.1.length = 3 := by
  intro e he
  unfold occStream at he
  obtain ⟨f, _, he2⟩ := List.mem_flatMap.mp he
  split at he2
  · cases he2
  · obtain ⟨occ, hocc, he3⟩ := List.mem_map.mp he2
    rw [← he3]
    exact find_tags_fst_len _ occ hocc

theorem mainOccurrences_keys_len (files : List (List Char × List Char)) :
    ∀ k ∈ (mainOccurrences files).map fun p => p.1, k.length = 3 := by
  intro k hk
  rcases foldl_addOcc_keys_sub _ [] k hk with h | h
  · cases h
  · obtain ⟨e, he, hek⟩ := List.mem_map.mp h
    rw [← hek]
    exact occStream_fst_len files e he

theorem chooseName_find_truthy (es : List (List Char × Option (List Char)))
    (ht : pyTruthy (chooseName es) = true) :
    (es.map fun e => e.2).find? pyTruthy = some (chooseName es) := by
  rw [chooseName_eq_find] at ht ⊢
  cases hf : (es.map fun e => e.2).find? pyTruthy with
  | none => rw [hf] at ht; simp [pyTruthy] at ht
  | some n => simp only [hf]

theorem chooseName_find_falsy (es : List (List Char × Option (List Char)))
    (ht : pyTruthy (chooseName es) = false) :
    (es.map fun e => e.2).find? pyTruthy = none := by
  cases hf : (es.map fun e => e.2).find? pyTruthy with
  | none => rfl
  | some n =>
    have hn := List.find?_some hf
    rw [chooseName_eq_find, hf] at ht
    rw [hn] at ht
    cases ht

theorem mainTagMap_keys (store : List (List Char × List Char)) :
    (mainTagMap store).map (fun p => p.1)
      = (mainOccurrences (selectCountryFiles store)).map fun p => p.1 := by
  unfold mainTagMap applyTagFallback applyLocales tagMapInit
  rw [List.map_map, List.map_map, List.map_map]
  rfl

theorem registryPairs_filter (tm : List (List Char × Option (List Char))) (tag : List Char)
    (hnd : (tm.map fun p => p.1).Nodup) (hmem : tag ∈ tm.map fun p => p.1) :
    (registryPairs tm).filter (fun p => decide (p.1 = tag))
      = [(tag, writtenName tm tag)] := by
  unfold registryPairs
  rw [filter_map_pair]
  have hperm := List.perm_insertionSort strLe (tm.map fun p => p.1)
  have hnd2 : ((tm.map fun p => p.1).insertionSort strLe).Nodup := hperm.nodup_iff.mpr hnd
  have hm2 : tag ∈ (tm.map fun p => p.1).insertionSort strLe := hperm.mem_iff.mpr hmem
  show (((tm.map fun p => p.1).insertionSort strLe).filter
      (fun a => decide (a = tag))).map (fun t => (t, writtenName tm t)) = _
  rw [filter_eq_singleton_of_nodup _ _ hnd2 hm2]
  rfl

theorem find?_map_keyfix2 {V W : Type} (g : List Char × V → W)
    (l : List (List Char × V)) (k : List Char) :
    ((l.map fun p => (p.1, g p)).find? fun p => decide (p.1 = k))
      = (l.find? fun p => decide (p.1 = k)).map fun p => (p.1, g p) :=
  find?_map_keyfix (fun p => (p.1, g p)) (fun _ => rfl) l k

theorem resolvedLookup (locs : List (List Char × List Char)) (d : OccDict)
    (tag : List Char) (es : List (List Char × Option (List Char)))
    (hfind : (d.find? fun p => decide (p.1 = tag)) = some (tag, es)) :
    lookupA (applyTagFallback (applyLocales locs (tagMapInit d))) tag
      = some (some (specResolvedName (es.map fun e => e.2) (lookupA locs tag) tag)) := by
  unfold applyTagFallback applyLocales tagMapInit
  rw [lookupA_map]
  rw [find?_map_keyfix2]
  rw [find?_map_keyfix2]
  rw [hfind]
  simp only [Option.map_some']
  unfold specResolvedName
  cases h1 : pyTruthy (chooseName es) with
  | true =>
    rw [chooseName_find_truthy es h1]
    cases hcv : chooseName es with
    | none => rw [hcv] at h1; cases h1
    | some v =>
      rw [hcv] at h1
      simp only [hcv, h1, if_true, reduceIte]
  | false =>
    rw [chooseName_find_falsy es h1]
    have hnone : chooseName es = none := chooseName_not_truthy es h1
    rw [hnone]
    cases hloc : lookupA locs tag with
    | none => simp [pyTruthy]
    | some l =>
      cases hle : l.isEmpty with
      | true =>
        have : l = [] := List.isEmpty_iff.mp hle
        subst this
        simp [pyTruthy]
      | false =>
        have hlt : pyTruthy (some l) = true := by simp [pyTruthy, hle]
        simp [pyTruthy, hle]

theorem lookupA_setdefault {V : Type} (d : List (List Char × V)) (a : List Char) (v : V)
    (k : List Char) :
    lookupA (setdefault d a v) k
      = match lookupA d k with
        | some w => some w
        | none => if a = k then some v else none := by
  unfold setdefault
  cases hf : (d.find? fun p => decide (p.1 = a)).isSome with
  | true =>
    rw [if_pos rfl]
    cases hl : lookupA d k with
    | some w => rfl
    | none =>
      by_cases hak : a = k
      · subst hak
        unfold lookupA at hl
        cases hfa : d.find? fun p => decide (p.1 = a) with
        | none => rw [hfa] at hf; cases hf
        | some q => rw [hfa] at hl; cases hl
      · rw [if_neg hak]
  | false =>
    rw [if_neg (by simp)]
    unfold lookupA
    rw [find?_append_or]
    cases hfk : d.find? fun p => decide (p.1 = k) with
    | some q => rfl
    | none =>
      by_cases hak : a = k
      · simp [hak]
      · simp [hak]

theorem lookupA_foldl_setdefault (pairs : List (List Char × List Char)) :
    ∀ (d0 : List (List Char × List Char)) (k : List Char),
      lookupA (pairs.foldl (fun d p => setdefault d p.1 p.2) d0) k
        = match lookupA d0 k with
          | some v => some v
          | none => (pairs.find? fun p => decide (p.1 = k)).map fun p => p.2 := by
  induction pairs with
  | nil =>
    intro d0 k
    show lookupA d0 k = _
    cases lookupA d0 k <;> rfl
  | cons p ps ih =>
    intro d0 k
    rw [List.foldl_cons, ih]
    rw [lookupA_setdefault]
    cases hl : lookupA d0 k with
    | some w => rfl
    | none =>
      rw [List.find?_cons]
      by_cases hpk : p.1 = k
      · simp [hpk]
      · simp [hpk]

theorem find?_eq_of_mem_nodup {V : Type} (d : List (List Char × V)) (k : List Char) (v : V)
    (hnd : (d.map fun p => p.1).Nodup) (hm : (k, v) ∈ d) :
    (d.find? fun p => decide (p.1 = k)) = some (k, v) := by
  induction d with
  | nil => cases hm
  | cons x xs ih =>
    rw [List.find?_cons]
    rcases List.mem_cons.mp hm with rfl | hm2
    · simp
    · have hx : x.1 ≠ k := by
        intro he
        have : k ∈ xs.map fun p => p.1 := List.mem_map.mpr ⟨(k, v), hm2, rfl⟩
        rw [List.map_cons, he] at hnd
        exact (List.nodup_cons.mp hnd).1 this
      simp only [show decide (x.1 = k) = false by simp [hx]]
      exact ih (List.nodup_cons.mp hnd).2 hm2

theorem find?_filter_nodup {V : Type} (d : List (List Char × V)) (P : List Char × V → Bool)
    (k : List Char) (hnd : (d.map fun p => p.1).Nodup) :
    ((d.filter P).find? fun p => decide (p.1 = k))
      = match d.find? fun p => decide (p.1 = k) with
        | some e => if P e then some e else none
        | none => none := by
  induction d with
  | nil => rfl
  | cons x xs ih =>
    have hnd' : (xs.map fun p => p.1).Nodup :=
      (List.nodup_cons.mp hnd).2
    have hx1 : x.1 ∉ xs.map fun p => p.1 :=
      (List.nodup_cons.mp hnd).1
    rw [List.filter_cons, List.find?_cons]
    by_cases hk : x.1 = k
    · simp only [show decide (x.1 = k) = true by simp [hk]]
      cases hP : P x with
      | true =>
        simp only [reduceIte, List.find?_cons, show decide (x.1 = k) = true by simp [hk], hP]
      | false =>
        simp only [Bool.false_eq_true, reduceIte, hP]
        rw [find?_none_of_not_mem_keys]
        intro hmem
        apply hx1
        obtain ⟨q, hq, hq1⟩ := List.mem_map.mp hmem
        exact List.mem_map.mpr ⟨q, List.mem_of_mem_filter hq, by rw [hq1, ← hk]⟩
    · simp only [show decide (x.1 = k) = false by simp [hk]]
      cases hP : P x with
      | true =>
        simp only [reduceIte, List.find?_cons, show decide (x.1 = k) = false by simp [hk]]
        exact ih hnd'
      | false =>
        simp only [Bool.false_eq_true, reduceIte]
        exact ih hnd'

theorem upper_not_space (c : Char) (h : isUpper c = true) : pyIsSpace c = false := by
  simp only [isUpper, Bool.and_eq_true, decide_eq_true_eq] at h
  obtain ⟨h1, h2⟩ := h
  unfold pyIsSpace
  by_cases e1 : c = ' '
  · subst e1; exact absurd h1 (by decide)
  · by_cases e2 : c = '\t'
    · subst e2; exact absurd h1 (by decide)
    · by_cases e3 : c = '\n'
      · subst e3; exact absurd h1 (by decide)
      · by_cases e4 : c = '\r'
        · subst e4; exact absurd h1 (by decide)
        · by_cases e5 : c = '\x0b'
          · subst e5; exact absurd h1 (by decide)
          · by_cases e6 : c = '\x0c'
            · subst e6; exact absurd h1 (by decide)
            · simp [e1, e2, e3, e4, e5, e6]

theorem upper_ne_nl (c : Char) (h : isUpper c = true) : c ≠ '\n' := by
  intro he
  subst he
  exact absurd h (by decide)

theorem quote_not_space (c : Char) (h : isQuote c = true) : pyIsSpace c = false := by
  simp only [isQuote, Bool.or_eq_true, decide_eq_true_eq] at h
  rcases h with rfl | rfl <;> decide

theorem quote_not_upper (c : Char) (h : isQuote c = true) : isUpper c = false := by
  simp only [isQuote, Bool.or_eq_true, decide_eq_true_eq] at h
  rcases h with rfl | rfl <;> decide

theorem quote_ne_nl (c : Char) (h : isQuote c = true) : c ≠ '\n' := by
  simp only [isQuote, Bool.or_eq_true, decide_eq_true_eq] at h
  rcases h with rfl | rfl <;> decide

theorem quote_ne_brace (c : Char) (h : isQuote c = true) : c ≠ '\x7b' := by
  simp only [isQuote, Bool.or_eq_true, decide_eq_true_eq] at h
  rcases h with rfl | rfl <;> decide

theorem dropWhile_append_all (P : Char → Bool) (pre t : List Char)
    (h : ∀ c ∈ pre, P c = true) :
    List.dropWhile P (pre ++ t) = List.dropWhile P t := by
  induction pre with
  | nil => rfl
  | cons x xs ih =>
    rw [List.cons_append, List.dropWhile_cons]
    simp only [h x (List.mem_cons_self x xs), reduceIte]
    exact ih fun c hc => h c (List.mem_cons_of_mem x hc)

theorem takeWhile_append_all (P : Char → Bool) (pre t : List Char)
    (h : ∀ c ∈ pre, P c = true) :
    List.takeWhile P (pre ++ t) = pre ++ List.takeWhile P t := by
  induction pre with
  | nil => rfl
  | cons x xs ih =>
    rw [List.cons_append, List.takeWhile_cons]
    simp only [h x (List.mem_cons_self x xs), reduceIte]
    rw [ih fun c hc => h c (List.mem_cons_of_mem x hc)]
    rfl

theorem dropWhile_cons_neg (P : Char → Bool) (x : Char) (t : List Char)
    (h : P x = false) : List.dropWhile P (x :: t) = x :: t := by
  rw [List.dropWhile_cons]
  simp [h]

theorem tailOk_of_line_end (wsD after : List Char)
    (hws : ∀ c ∈ wsD, pyIsSpace c = true ∧ c ≠ '\n')
    (hafter : after = [] ∨ after.head? = some '\n') :
    tailOk (wsD ++ after) = true := by
  unfold tailOk
  have htw : List.takeWhile (fun c => decide (c ≠ '\n')) (wsD ++ after)
      = wsD ++ List.takeWhile (fun c => decide (c ≠ '\n')) after := by
    apply takeWhile_append_all
    intro c hc
    simp [(hws c hc).2]
  rw [htw]
  have hta : List.takeWhile (fun c => decide (c ≠ '\n')) after = [] := by
    rcases hafter with rfl | hh
    · rfl
    · cases after with
      | nil => rfl
      | cons x xs =>
        simp only [List.head?_cons, Option.some.injEq] at hh
        subst hh
        rfl
  rw [hta, List.append_nil]
  rw [List.all_eq_true]
  intro c hc
  exact (hws c hc).1

theorem findCloseBy_eval (qcls : Char → Bool) (mid : List Char) :
    ∀ (acc : List Char) (q2 : Char) (rest : List Char),
      (∀ ch ∈ mid, qcls ch = false ∧ ch ≠ '\n') →
      qcls q2 = true → q2 ≠ '\n' → tailOk rest = true →
      findCloseBy qcls acc (mid ++ q2 :: rest) = some (acc.reverse ++ mid, rest) := by
  induction mid with
  | nil =>
    intro acc q2 rest _ hq2 hq2n htail
    rw [List.nil_append]
    unfold findCloseBy
    rw [if_neg hq2n, if_pos (by rw [hq2, htail]; rfl)]
    rw [List.append_nil]
  | cons c mid' ih =>
    intro acc q2 rest hmid hq2 hq2n htail
    rw [List.cons_append]
    unfold findCloseBy
    have hc := hmid c (List.mem_cons_self c mid')
    rw [if_neg hc.2, if_neg (by rw [hc.1]; simp)]
    rw [ih (c :: acc) q2 rest (fun ch hch => hmid ch (List.mem_cons_of_mem c hch)) hq2 hq2n htail]
    rw [List.reverse_cons, List.append_assoc]
    rfl

theorem findCloseBy_inv (qcls : Char → Bool) :
    ∀ (l acc content rest : List Char),
      findCloseBy qcls acc l = some (content, rest) →
      ∃ mid q2, l = mid ++ q2 :: rest ∧ content = acc.reverse ++ mid ∧
        (∀ ch ∈ mid, ch ≠ '\n') ∧ qcls q2 = true ∧ q2 ≠ '\n' ∧ tailOk rest = true := by
  intro l
  induction l with
  | nil => intro acc content rest h; exact Option.noConfusion h
  | cons c rest0 ih =>
    intro acc content rest h
    unfold findCloseBy at h
    split at h
    · exact Option.noConfusion h
    · rename_i hnl
      split at h
      · rename_i hq
        simp only [Option.some.injEq, Prod.mk.injEq] at h
        simp only [Bool.and_eq_true] at hq
        refine ⟨[], c, ?_, by simp [← h.1], by simp, hq.1, hnl, ?_⟩
        · rw [List.nil_append, h.2]
        · rw [← h.2]; exact hq.2
      · obtain ⟨mid, q2, hl, hcont, hmid, hq2, hq2n, htail⟩ := ih (c :: acc) content rest h
        refine ⟨c :: mid, q2, by rw [List.cons_append, hl], ?_, ?_, hq2, hq2n, htail⟩
        · rw [hcont, List.reverse_cons, List.append_assoc]
          rfl
        · intro ch hch
          rcases List.mem_cons.mp hch with rfl | hch2
          · exact hnl
          · exact hmid ch hch2

theorem dropWhile_head_false (P : Char → Bool) (l : List Char) (x : Char) (t : List Char)
    (h : List.dropWhile P l = x :: t) : P x = false := by
  induction l with
  | nil => cases h
  | cons c rest ih =>
    rw [List.dropWhile_cons] at h
    split at h
    · exact ih h
    · rename_i hc
      injection h with h1 h2
      subst h1
      simpa using hc

theorem takeWhile_prefix_sat (P : Char → Bool) (l : List Char) :
    ∀ i, i < (l.takeWhile P).length → ∃ c, l[i]? = some c ∧ P c = true := by
  induction l with
  | nil => intro i hi; simp at hi
  | cons c rest ih =>
    intro i hi
    rw [List.takeWhile_cons] at hi
    by_cases hc : P c = true
    · rw [if_pos hc] at hi
      cases i with
      | zero => exact ⟨c, by simp, hc⟩
      | succ j =>
        obtain ⟨d, hd, hPd⟩ := ih j (by simpa using hi)
        exact ⟨d, by simpa using hd, hPd⟩
    · rw [if_neg hc] at hi
      simp at hi
  
theorem takeWhile_length_gt (P : Char → Bool) (l : List Char) :
    ∀ j, (∀ i ≤ j, ∃ c, l[i]? = some c ∧ P c = true) → j < (l.takeWhile P).length := by
  induction l with
  | nil =>
    intro j h
    obtain ⟨c, hc, _⟩ := h 0 (Nat.zero_le j)
    simp at hc
  | cons x rest ih =>
    intro j h
    obtain ⟨c, hc, hPc⟩ := h 0 (Nat.zero_le j)
    simp only [List.getElem?_cons_zero, Option.some.injEq] at hc
    subst hc
    rw [List.takeWhile_cons, if_pos hPc]
    cases j with
    | zero => simp
    | succ j2 =>
      have := ih j2 (fun i hi => by
        obtain ⟨d, hd, hPd⟩ := h (i + 1) (Nat.succ_le_succ hi)
        exact ⟨d, by simpa using hd, hPd⟩)
      simpa using Nat.succ_lt_succ this

theorem lastNlIdx_no_nl (l : List Char) :
    ∀ i best, (∀ c ∈ l, c ≠ '\n') → lastNlIdx l i best = best := by
  induction l with
  | nil => intro i best _; rfl
  | cons c rest ih =>
    intro i best h
    unfold lastNlIdx
    rw [if_neg (h c (List.mem_cons_self c rest))]
    exact ih (i + 1) best fun ch hch => h ch (List.mem_cons_of_mem c hch)

theorem lastNlIdx_spec (l : List Char) :
    ∀ i best, (∃ j : Nat, l[j]? = some '\n') →
      ∃ r, r < l.length ∧ lastNlIdx l i best = i + r ∧ l[r]? = some '\n' := by
  induction l with
  | nil =>
    intro i best hex
    obtain ⟨j, hj⟩ := hex
    simp at hj
  | cons c rest ih =>
    intro i best hex
    unfold lastNlIdx
    by_cases hc : c = '\n'
    · subst hc
      rw [if_pos rfl]
      by_cases hrest : ∃ j : Nat, rest[j]? = some '\n'
      · obtain ⟨r, hr, heq, hchar⟩ := ih (i + 1) i hrest
        refine ⟨r + 1, by simpa using Nat.succ_lt_succ hr, by rw [heq]; omega, by simpa using hchar⟩
      · have hnone : ∀ ch ∈ rest, ch ≠ '\n' := by
          intro ch hch he
          subst he
          exact hrest (List.mem_iff_getElem?.mp hch)
        refine ⟨0, by simp, ?_, by simp⟩
        rw [lastNlIdx_no_nl rest (i + 1) i hnone]
        omega
    · rw [if_neg hc]
      have hrest : ∃ j : Nat, rest[j]? = some '\n' := by
        obtain ⟨j, hj⟩ := hex
        cases j with
        | zero =>
          simp only [List.getElem?_cons_zero, Option.some.injEq] at hj
          exact absurd hj hc
        | succ j2 => exact ⟨j2, by simpa using hj⟩
      obtain ⟨r, hr, heq, hchar⟩ := ih (i + 1) best hrest
      refine ⟨r + 1, by simpa using Nat.succ_lt_succ hr, by rw [heq]; omega, by simpa using hchar⟩

theorem takeWhile_getElem? (P : Char → Bool) (l : List Char) :
    ∀ i, i < (l.takeWhile P).length → (l.takeWhile P)[i]? = l[i]? := by
  induction l with
  | nil => intro i hi; simp at hi
  | cons c t ih =>
    intro i hi
    rw [List.takeWhile_cons] at hi ⊢
    by_cases hc : P c = true
    · rw [if_pos hc] at hi ⊢
      cases i with
      | zero => simp
      | succ j =>
        simp only [List.getElem?_cons_succ]
        exact ih j (by simpa using hi)
    · rw [if_neg hc] at hi
      simp at hi

theorem takeWhile_boundary (P : Char → Bool) (l : List Char)
    (h : (l.takeWhile P).length < l.length) :
    ∃ c, l[(l.takeWhile P).length]? = some c ∧ P c = false := by
  have hsplit := List.takeWhile_append_dropWhile P l
  cases hdw : l.dropWhile P with
  | nil =>
    rw [hdw, List.append_nil] at hsplit
    rw [hsplit] at h
    omega
  | cons x t =>
    have hl : l = List.takeWhile P l ++ x :: t := by
      conv_lhs => rw [← hsplit, hdw]
    refine ⟨x, ?_, dropWhile_head_false P l x t hdw⟩
    have hidx : (List.takeWhile P l ++ x :: t)[(List.takeWhile P l).length]? = some x := by
      rw [List.getElem?_append_right (Nat.le_refl _)]
      simp
    conv_lhs => arg 1; rw [hl]
    exact hidx

theorem tailConsumed_spec (rest : List Char) (h : tailOk rest = true) :
    (∀ i, i < tailConsumed rest → ∃ c, rest[i]? = some c ∧ pyIsSpace c = true) ∧
    (tailConsumed rest = rest.length ∨ rest[tailConsumed rest]? = some '\n') := by
  unfold tailConsumed
  by_cases hLl : (rest.takeWhile pyIsSpace).length = rest.length
  · rw [if_pos hLl]
    exact ⟨fun i hi => takeWhile_prefix_sat pyIsSpace rest i (by omega), Or.inl hLl⟩
  · rw [if_neg hLl]
    have hLlt : (rest.takeWhile pyIsSpace).length < rest.length := by
      have := congrArg List.length (List.takeWhile_append_dropWhile pyIsSpace rest)
      rw [List.length_append] at this
      omega
    obtain ⟨cx, hcx, hcxns⟩ := takeWhile_boundary pyIsSpace rest hLlt
    have hallT : ∀ c ∈ rest.takeWhile fun c => decide (c ≠ '\n'), pyIsSpace c = true := by
      unfold tailOk at h
      rw [List.all_eq_true] at h
      exact h
    have hTL : (rest.takeWhile fun c => decide (c ≠ '\n')).length
        ≤ (rest.takeWhile pyIsSpace).length := by
      by_contra hcon
      push_neg at hcon
      have hTidx := takeWhile_getElem? (fun c => decide (c ≠ '\n')) rest
        (rest.takeWhile pyIsSpace).length hcon
      rw [hcx] at hTidx
      have hmem : cx ∈ rest.takeWhile fun c => decide (c ≠ '\n') :=
        List.getElem?_mem hTidx
      rw [hallT cx hmem] at hcxns
      cases hcxns
    have hTlt : (rest.takeWhile fun c => decide (c ≠ '\n')).length < rest.length := by
      omega
    obtain ⟨cy, hcy, hcyP⟩ := takeWhile_boundary (fun c => decide (c ≠ '\n')) rest hTlt
    have hcynl : cy = '\n' := by simpa using hcyP
    subst hcynl
    have hTltL : (rest.takeWhile fun c => decide (c ≠ '\n')).length
        < (rest.takeWhile pyIsSpace).length := by
      rcases Nat.lt_or_ge (rest.takeWhile fun c => decide (c ≠ '\n')).length
          (rest.takeWhile pyIsSpace).length with hlt | hge
      · exact hlt
      · have heq : (rest.takeWhile fun c => decide (c ≠ '\n')).length
            = (rest.takeWhile pyIsSpace).length := by omega
        rw [heq, hcx] at hcy
        injection hcy with hce
        rw [hce] at hcxns
        exact absurd hcxns (by decide)
    have hex : ∃ j : Nat, (rest.take (rest.takeWhile pyIsSpace).length)[j]? = some '\n' := by
      refine ⟨(rest.takeWhile fun c => decide (c ≠ '\n')).length, ?_⟩
      rw [List.getElem?_take, if_pos hTltL]
      exact hcy
    obtain ⟨r, hr, heq, hchar⟩ := lastNlIdx_spec (rest.take (rest.takeWhile pyIsSpace).length) 0 0 hex
    rw [heq]
    have hrL : r < (rest.takeWhile pyIsSpace).length := by
      have : (rest.take (rest.takeWhile pyIsSpace).length).length
          = (rest.takeWhile pyIsSpace).length := by
        rw [List.length_take]
        omega
      omega
    constructor
    · intro i hi
      exact takeWhile_prefix_sat pyIsSpace rest i (by omega)
    · right
      rw [List.getElem?_take, if_pos hrL] at hchar
      simpa using hchar

theorem upper_ne_eqch (c : Char) (h : isUpper c = true) : c ≠ '=' := by
  intro he
  subst he
  exact absurd h (by decide)

theorem upper_not_quote (c : Char) (h : isUpper c = true) : isQuote c = false := by
  cases hq : isQuote c
  · rfl
  · have hqq := quote_not_upper c hq
    rw [h] at hqq
    cases hqq

theorem getElem_append_len (u v : List Char) (x : Char) :
    (u ++ x :: v)[u.length]? = some x := by
  rw [List.getElem?_append_right (Nat.le_refl _)]
  simp

theorem getLast?_drop_of_ne_nil (l : List Char) (n : Nat) (h : l.drop n ≠ []) :
    (l.drop n).getLast? = l.getLast? := by
  conv_rhs => rw [← List.take_append_drop n l]
  rw [List.getLast?_append_of_ne_nil _ h]

theorem mem_takeWhile_sat (P : Char → Bool) (l : List Char) :
    ∀ c ∈ l.takeWhile P, P c = true := by
  induction l with
  | nil => intro c hc; simp at hc
  | cons x t ih =>
    intro c hc
    rw [List.takeWhile_cons] at hc
    by_cases hx : P x = true
    · rw [if_pos hx] at hc
      rcases List.mem_cons.mp hc with rfl | hc2
      · exact hx
      · exact ih c hc2
    · rw [if_neg hx] at hc
      simp at hc

theorem dropWhile_append_cons (P : Char → Bool) (l1 l2 t : List Char) (x : Char)
    (h : List.dropWhile P l1 = x :: t) :
    List.dropWhile P (l1 ++ l2) = x :: (t ++ l2) := by
  have hsplit := List.takeWhile_append_dropWhile P l1
  have hx : P x = false := dropWhile_head_false P l1 x t h
  calc List.dropWhile P (l1 ++ l2)
      = List.dropWhile P ((List.takeWhile P l1 ++ List.dropWhile P l1) ++ l2) := by rw [hsplit]
    _ = List.dropWhile P (List.takeWhile P l1 ++ (x :: (t ++ l2))) := by
        rw [h, List.append_assoc]; rfl
    _ = List.dropWhile P (x :: (t ++ l2)) :=
        dropWhile_append_all P _ _ (fun ch hch => mem_takeWhile_sat P l1 ch hch)
    _ = x :: (t ++ l2) := dropWhile_cons_neg P x (t ++ l2) hx

theorem split_at_first_nl (mid : List Char) :
    ∀ (u v rest : List Char) (qc : Char),
      u ++ '\n' :: v = mid ++ qc :: rest →
      (∀ ch ∈ mid, ch ≠ '\n') → qc ≠ '\n' →
      ∃ w, u = mid ++ qc :: w ∧ rest = w ++ '\n' :: v := by
  induction mid with
  | nil =>
    intro u v rest qc heq hmid hqc
    cases u with
    | nil =>
      rw [List.nil_append, List.nil_append] at heq
      injection heq with h1 h2
      exact absurd h1.symm hqc
    | cons u0 ut =>
      rw [List.cons_append, List.nil_append] at heq
      injection heq with h1 h2
      exact ⟨ut, by simp [h1], h2.symm⟩
  | cons m0 mt ih =>
    intro u v rest qc heq hmid hqc
    cases u with
    | nil =>
      rw [List.nil_append, List.cons_append] at heq
      injection heq with h1 h2
      exact absurd h1.symm (hmid m0 (List.mem_cons_self m0 mt))
    | cons u0 ut =>
      rw [List.cons_append, List.cons_append] at heq
      injection heq with h1 h2
      obtain ⟨w, hw1, hw2⟩ := ih ut v rest qc h2
        (fun ch hch => hmid ch (List.mem_cons_of_mem m0 hch)) hqc
      refine ⟨w, ?_, hw2⟩
      rw [List.cons_append, ← hw1, h1]

theorem takeWhile_length_ne_of_mem (P : Char → Bool) (l : List Char) (c : Char)
    (hc : c ∈ l) (hPc : P c = false) : (l.takeWhile P).length ≠ l.length := by
  intro he
  have hsplit := List.takeWhile_append_dropWhile P l
  have hlen := congrArg List.length hsplit
  rw [List.length_append] at hlen
  have hdn : List.dropWhile P l = [] := List.eq_nil_of_length_eq_zero (by omega)
  have hall := List.dropWhile_eq_nil_iff.mp hdn
  rw [hall c hc] at hPc
  cases hPc

theorem mem_of_dropWhile_cons (P : Char → Bool) (l t : List Char) (x : Char)
    (h : List.dropWhile P l = x :: t) : x ∈ l := by
  have hsplit := List.takeWhile_append_dropWhile P l
  rw [h] at hsplit
  rw [← hsplit]
  exact List.mem_append.mpr (Or.inr (List.mem_cons_self x t))

theorem tailConsumed_le (l : List Char) (N : Nat)
    (hne : (l.takeWhile pyIsSpace).length ≠ l.length)
    (hnl : ∀ j, j < (l.takeWhile pyIsSpace).length → l[j]? = some '\n' → j ≤ N) :
    tailConsumed l ≤ N := by
  unfold tailConsumed
  rw [if_neg hne]
  by_cases hex : ∃ j : Nat, (l.take (l.takeWhile pyIsSpace).length)[j]? = some '\n'
  · obtain ⟨r, hr, heq, hchar⟩ := lastNlIdx_spec _ 0 0 hex
    rw [heq]
    rw [List.length_take] at hr
    have hrL : r < (l.takeWhile pyIsSpace).length := lt_of_lt_of_le hr (min_le_left _ _)
    rw [List.getElem?_take, if_pos hrL] at hchar
    have := hnl r hrL hchar
    omega
  · have hno : ∀ ch ∈ l.take (l.takeWhile pyIsSpace).length, ch ≠ '\n' := by
      intro ch hch he
      subst he
      exact hex (List.mem_iff_getElem?.mp hch)
    rw [lastNlIdx_no_nl _ 0 0 hno]
    exact Nat.zero_le N

theorem tagLineAfterWs_inv (l tg r4 : List Char)
    (h : tagLineAfterWs l = some (tg, r4)) :
    ∃ x y z r2, l = x :: y :: z :: r2 ∧ tg = [x, y, z] ∧
      isUpper x = true ∧ isUpper y = true ∧ isUpper z = true ∧
      List.dropWhile pyIsSpace r2 = '=' :: r4 := by
  unfold tagLineAfterWs at h
  split at h
  · rename_i x y z r2
    split at h
    · rename_i hup
      split at h
      · rename_i r4x heq
        simp only [Option.some.injEq, Prod.mk.injEq] at h
        simp only [Bool.and_eq_true] at hup
        exact ⟨x, y, z, r2, rfl, h.1.symm, hup.1.1, hup.1.2, hup.2, by rw [heq, h.2]⟩
      · exact Option.noConfusion h
    · exact Option.noConfusion h
  · exact Option.noConfusion h

theorem inlineAfterWs_inv (l tg content rest : List Char)
    (h : inlineAfterWs l = some (tg, content, rest)) :
    ∃ x y z r2 r4 qo r6 c0 r7, l = x :: y :: z :: r2 ∧ tg = [x, y, z] ∧
      isUpper x = true ∧ isUpper y = true ∧ isUpper z = true ∧
      List.dropWhile pyIsSpace r2 = '=' :: r4 ∧
      List.dropWhile pyIsSpace r4 = qo :: r6 ∧ isQuote qo = true ∧
      r6 = c0 :: r7 ∧ c0 ≠ '\n' ∧
      findCloseBy isQuote [c0] r7 = some (content, rest) := by
  unfold inlineAfterWs at h
  split at h
  · rename_i x y z r2
    split at h
    · rename_i hup
      split at h
      · rename_i r4 heq2
        split at h
        · rename_i qo r6 heq3
          split at h
          · rename_i hq
            split at h
            · rename_i c0 r7
              split at h
              · exact Option.noConfusion h
              · rename_i hc0
                split at h
                · rename_i content0 rest0 heq5
                  simp only [Option.some.injEq, Prod.mk.injEq] at h
                  simp only [Bool.and_eq_true] at hup
                  exact ⟨x, y, z, r2, r4, qo, c0 :: r7, c0, r7, rfl, h.1.symm,
                    hup.1.1, hup.1.2, hup.2, heq2, heq3, hq, rfl, hc0,
                    by rw [heq5, h.2.1, h.2.2]⟩
                · exact Option.noConfusion h
            · exact Option.noConfusion h
          · exact Option.noConfusion h
        · exact Option.noConfusion h
      · exact Option.noConfusion h
    · exact Option.noConfusion h
  · exact Option.noConfusion h

theorem tagLineAfterWs_eval (wsB tail1 : List Char) (a b c : Char)
    (hwsB : ∀ ch ∈ wsB, pyIsSpace ch = true)
    (ha : isUpper a = true) (hb : isUpper b = true) (hc : isUpper c = true) :
    tagLineAfterWs (a :: b :: c :: (wsB ++ '=' :: tail1)) = some ([a, b, c], tail1) := by
  have hdw : List.dropWhile pyIsSpace (wsB ++ '=' :: tail1) = '=' :: tail1 := by
    rw [dropWhile_append_all pyIsSpace wsB _ hwsB]
    exact dropWhile_cons_neg pyIsSpace '=' _ (by decide)
  unfold tagLineAfterWs
  simp only [ha, hb, hc, Bool.true_and, reduceIte, hdw]

theorem tagLineMatchAt_eval (ws0 wsB tail1 : List Char) (a b c : Char)
    (hws0 : ∀ ch ∈ ws0, pyIsSpace ch = true)
    (hwsB : ∀ ch ∈ wsB, pyIsSpace ch = true)
    (ha : isUpper a = true) (hb : isUpper b = true) (hc : isUpper c = true) :
    tagLineMatchAt (ws0 ++ a :: b :: c :: (wsB ++ '=' :: tail1))
      = some (ws0.length + wsB.length + 4, [a, b, c]) := by
  have hdw : List.dropWhile pyIsSpace (ws0 ++ a :: b :: c :: (wsB ++ '=' :: tail1))
      = a :: b :: c :: (wsB ++ '=' :: tail1) := by
    rw [dropWhile_append_all pyIsSpace ws0 _ hws0]
    exact dropWhile_cons_neg pyIsSpace a _ (upper_not_space a ha)
  unfold tagLineMatchAt
  simp only [hdw, tagLineAfterWs_eval wsB tail1 a b c hwsB ha hb hc]
  have hlen : (ws0 ++ a :: b :: c :: (wsB ++ '=' :: tail1)).length - tail1.length
      = ws0.length + wsB.length + 4 := by
    simp only [List.length_append, List.length_cons]
    omega
  rw [hlen]

theorem inlineAfterWs_eval (wsB wsC wsD ctail after : List Char) (a b c q1 q2 c0 : Char)
    (hwsB : ∀ ch ∈ wsB, pyIsSpace ch = true)
    (hwsC : ∀ ch ∈ wsC, pyIsSpace ch = true)
    (hwsD : ∀ ch ∈ wsD, pyIsSpace ch = true ∧ ch ≠ '\n')
    (ha : isUpper a = true) (hb : isUpper b = true) (hc : isUpper c = true)
    (hq1 : isQuote q1 = true) (hq2 : isQuote q2 = true)
    (hc0 : c0 ≠ '\n')
    (hctail : ∀ ch ∈ ctail, isQuote ch = false ∧ ch ≠ '\n')
    (hafter : after = [] ∨ after.head? = some '\n') :
    inlineAfterWs (a :: b :: c :: (wsB ++ '=' :: (wsC ++ q1 :: c0 :: (ctail ++ q2 :: (wsD ++ after)))))
      = some ([a, b, c], c0 :: ctail, wsD ++ after) := by
  have hdw1 : List.dropWhile pyIsSpace
        (wsB ++ '=' :: (wsC ++ q1 :: c0 :: (ctail ++ q2 :: (wsD ++ after))))
      = '=' :: (wsC ++ q1 :: c0 :: (ctail ++ q2 :: (wsD ++ after))) := by
    rw [dropWhile_append_all pyIsSpace wsB _ hwsB]
    exact dropWhile_cons_neg pyIsSpace '=' _ (by decide)
  have hdw2 : List.dropWhile pyIsSpace (wsC ++ q1 :: c0 :: (ctail ++ q2 :: (wsD ++ after)))
      = q1 :: c0 :: (ctail ++ q2 :: (wsD ++ after)) := by
    rw [dropWhile_append_all pyIsSpace wsC _ hwsC]
    exact dropWhile_cons_neg pyIsSpace q1 _ (quote_not_space q1 hq1)
  have hfc : findCloseBy isQuote [c0] (ctail ++ q2 :: (wsD ++ after))
      = some (c0 :: ctail, wsD ++ after) :=
    findCloseBy_eval isQuote ctail [c0] q2 (wsD ++ after)
      (fun ch hch => (hctail ch hch).1 ▸ ⟨rfl, (hctail ch hch).2⟩) hq2 (quote_ne_nl q2 hq2)
      (tailOk_of_line_end wsD after hwsD hafter)
  unfold inlineAfterWs
  simp only [ha, hb, hc, Bool.true_and, reduceIte, hdw1, hdw2, hq1, if_neg hc0, hfc]

theorem inlineMatchAt_eval (ws0 wsB wsC wsD ctail after : List Char) (a b c q1 q2 c0 : Char)
    (hws0 : ∀ ch ∈ ws0, pyIsSpace ch = true)
    (hwsB : ∀ ch ∈ wsB, pyIsSpace ch = true)
    (hwsC : ∀ ch ∈ wsC, pyIsSpace ch = true)
    (hwsD : ∀ ch ∈ wsD, pyIsSpace ch = true ∧ ch ≠ '\n')
    (ha : isUpper a = true) (hb : isUpper b = true) (hc : isUpper c = true)
    (hq1 : isQuote q1 = true) (hq2 : isQuote q2 = true)
    (hc0 : c0 ≠ '\n')
    (hctail : ∀ ch ∈ ctail, isQuote ch = false ∧ ch ≠ '\n')
    (hafter : after = [] ∨ after.head? = some '\n') :
    inlineMatchAt (ws0 ++ a :: b :: c :: (wsB ++ '=' :: (wsC ++ q1 :: c0 :: (ctail ++ q2 :: (wsD ++ after)))))
      = some (ws0.length + wsB.length + wsC.length + ctail.length + 7
          + tailConsumed (wsD ++ after), [a, b, c], c0 :: ctail) := by
  have hdw : List.dropWhile pyIsSpace
        (ws0 ++ a :: b :: c :: (wsB ++ '=' :: (wsC ++ q1 :: c0 :: (ctail ++ q2 :: (wsD ++ after)))))
      = a :: b :: c :: (wsB ++ '=' :: (wsC ++ q1 :: c0 :: (ctail ++ q2 :: (wsD ++ after)))) := by
    rw [dropWhile_append_all pyIsSpace ws0 _ hws0]
    exact dropWhile_cons_neg pyIsSpace a _ (upper_not_space a ha)
  unfold inlineMatchAt
  simp only [hdw, inlineAfterWs_eval wsB wsC wsD ctail after a b c q1 q2 c0
    hwsB hwsC hwsD ha hb hc hq1 hq2 hc0 hctail hafter]
  have hlen : (ws0 ++ a :: b :: c :: (wsB ++ '=' :: (wsC ++ q1 :: c0 :: (ctail ++ q2 :: (wsD ++ after))))).length
        - (wsD ++ after).length
      = ws0.length + wsB.length + wsC.length + ctail.length + 7 := by
    simp only [List.length_append, List.length_cons]
    omega
  rw [hlen]

theorem processTagMatch_at_quote (pre2 wsC rest2 tag : List Char) (q1 : Char)
    (hwsC : ∀ ch ∈ wsC, pyIsSpace ch = true)
    (hq1 : isQuote q1 = true) :
    processTagMatch (pre2 ++ (wsC ++ q1 :: rest2)) pre2.length tag = [(tag, none)] := by
  have hdrop : (pre2 ++ (wsC ++ q1 :: rest2)).drop pre2.length = wsC ++ q1 :: rest2 :=
    List.drop_left pre2 _
  have hdw : List.dropWhile pyIsSpace (wsC ++ q1 :: rest2) = q1 :: rest2 := by
    rw [dropWhile_append_all pyIsSpace wsC _ hwsC]
    exact dropWhile_cons_neg pyIsSpace q1 _ (quote_not_space q1 hq1)
  unfold processTagMatch
  simp only [hdrop, hdw, if_pos (quote_ne_brace q1 hq1)]

theorem bd_decomp (bd : List Char) (x : Char) (t0 : List Char)
    (hlast : bd.getLast? = some '\n')
    (hdwb : List.dropWhile pyIsSpace bd = x :: t0) :
    ∃ t0a, t0 = t0a ++ ['\n'] := by
  have hx : pyIsSpace x = false := dropWhile_head_false _ bd x t0 hdwb
  have hsplit := List.takeWhile_append_dropWhile pyIsSpace bd
  rw [hdwb] at hsplit
  have hxt0last : (x :: t0).getLast? = some '\n' := by
    rw [← hsplit] at hlast
    rwa [List.getLast?_append_of_ne_nil _ (by simp)] at hlast
  have ht0ne : t0 ≠ [] := by
    intro he
    subst he
    simp only [List.getLast?_singleton, Option.some.injEq] at hxt0last
    rw [hxt0last] at hx
    exact absurd hx (by decide)
  have ht0last : t0.getLast? = some '\n' := by
    have hx0 : x :: t0 = [x] ++ t0 := rfl
    rw [hx0, List.getLast?_append_of_ne_nil _ ht0ne] at hxt0last
    exact hxt0last
  refine ⟨t0.dropLast, ?_⟩
  have hgl : t0.getLast ht0ne = '\n' := by
    have h2 := List.getLast?_eq_getLast t0 ht0ne
    rw [ht0last] at h2
    injection h2 with h3
    exact h3.symm
  rw [← hgl]
  exact (List.dropLast_append_getLast ht0ne).symm

theorem cross_mid (bd rest0 rtl r2 r4 : List Char) (a0 x : Char) (t0 : List Char)
    (hlast : bd.getLast? = some '\n')
    (hdwb : List.dropWhile pyIsSpace bd = x :: t0)
    (hr0 : List.dropWhile pyIsSpace rest0 = a0 :: rtl)
    (ha : isUpper a0 = true)
    (y z : Char)
    (hshape : t0 ++ rest0 = y :: z :: r2)
    (huy : isUpper y = true) (huz : isUpper z = true)
    (hr2 : List.dropWhile pyIsSpace r2 = '=' :: r4) :
    ∃ wt, r4 = wt ++ '\n' :: rest0 ∧ wt.length + 1 ≤ bd.length := by
  obtain ⟨t0a, ht0⟩ := bd_decomp bd x t0 hlast hdwb
  rw [ht0, List.append_assoc, List.singleton_append] at hshape
  cases t0a with
  | nil =>
    rw [List.nil_append] at hshape
    injection hshape with h1 _
    rw [← h1] at huy
    exact absurd huy (by decide)
  | cons y2 t0a2 =>
    rw [List.cons_append] at hshape
    injection hshape with h1 hshape2
    cases t0a2 with
    | nil =>
      rw [List.nil_append] at hshape2
      injection hshape2 with h2 _
      rw [← h2] at huz
      exact absurd huz (by decide)
    | cons z2 t0b =>
      rw [List.cons_append] at hshape2
      injection hshape2 with h2 hshape3
      rw [← hshape3] at hr2
      cases hdwt : List.dropWhile pyIsSpace t0b with
      | nil =>
        have hall := List.dropWhile_eq_nil_iff.mp hdwt
        rw [dropWhile_append_all pyIsSpace t0b _ hall, List.dropWhile_cons,
            if_pos (by decide), hr0] at hr2
        injection hr2 with h3 _
        rw [h3] at ha
        exact absurd ha (by decide)
      | cons w wt0 =>
        rw [dropWhile_append_cons pyIsSpace t0b ('\n' :: rest0) wt0 w hdwt] at hr2
        injection hr2 with h3 h4
        refine ⟨wt0, h4.symm, ?_⟩
        have h5 := congrArg List.length (List.takeWhile_append_dropWhile pyIsSpace bd)
        rw [hdwb] at h5
        simp only [List.length_append, List.length_cons] at h5
        have h6 := congrArg List.length ht0
        simp only [List.length_append, List.length_cons, List.length_nil] at h6
        have h7 := congrArg List.length (List.takeWhile_append_dropWhile pyIsSpace t0b)
        rw [hdwt] at h7
        simp only [List.length_append, List.length_cons] at h7
        omega

theorem tagLine_cross_bound (bd rest0 rtl : List Char) (a0 : Char) (e : Nat) (g : List Char)
    (hlast : bd.getLast? = some '\n')
    (hB : List.dropWhile pyIsSpace bd ≠ [])
    (hr0 : List.dropWhile pyIsSpace rest0 = a0 :: rtl)
    (ha : isUpper a0 = true)
    (hm : tagLineMatchAt (bd ++ rest0) = some (e, g)) :
    e + 1 ≤ bd.length := by
  cases hdwb : List.dropWhile pyIsSpace bd with
  | nil => exact absurd hdwb hB
  | cons x t0 =>
    have hdws : List.dropWhile pyIsSpace (bd ++ rest0) = x :: (t0 ++ rest0) :=
      dropWhile_append_cons pyIsSpace bd rest0 t0 x hdwb
    unfold tagLineMatchAt at hm
    rw [hdws] at hm
    cases hma : tagLineAfterWs (x :: (t0 ++ rest0)) with
    | none => rw [hma] at hm; exact Option.noConfusion hm
    | some pr =>
      obtain ⟨tg, r4⟩ := pr
      rw [hma] at hm
      simp only [Option.some.injEq, Prod.mk.injEq] at hm
      obtain ⟨x2, y, z, r2, hshape, _, _, huy, huz, hr2⟩ := tagLineAfterWs_inv _ _ _ hma
      injection hshape with hx2 hshape1
      obtain ⟨wt, hr4, hwtlen⟩ := cross_mid bd rest0 rtl r2 r4 a0 x t0 hlast hdwb hr0 ha y z
        hshape1 huy huz hr2
      have hlenr4 := congrArg List.length hr4
      simp only [List.length_append, List.length_cons] at hlenr4
      have hlen2 : (bd ++ rest0).length = bd.length + rest0.length := List.length_append _ _
      obtain ⟨he, -⟩ := hm
      omega

theorem inline_cross_bound (bd rest0 rtl : List Char) (a0 : Char) (e : Nat)
    (g : List Char × List Char)
    (hlast : bd.getLast? = some '\n')
    (hB : List.dropWhile pyIsSpace bd ≠ [])
    (hr0 : List.dropWhile pyIsSpace rest0 = a0 :: rtl)
    (ha : isUpper a0 = true)
    (hnlA : ∀ ch ∈ List.takeWhile pyIsSpace rest0, ch ≠ '\n')
    (hm : inlineMatchAt (bd ++ rest0) = some (e, g)) :
    e + 1 ≤ bd.length := by
  cases hdwb : List.dropWhile pyIsSpace bd with
  | nil => exact absurd hdwb hB
  | cons x t0 =>
    have hdws : List.dropWhile pyIsSpace (bd ++ rest0) = x :: (t0 ++ rest0) :=
      dropWhile_append_cons pyIsSpace bd rest0 t0 x hdwb
    unfold inlineMatchAt at hm
    rw [hdws] at hm
    cases hma : inlineAfterWs (x :: (t0 ++ rest0)) with
    | none => rw [hma] at hm; exact Option.noConfusion hm
    | some tr =>
      obtain ⟨tg, content, rest⟩ := tr
      rw [hma] at hm
      simp only [Option.some.injEq, Prod.mk.injEq] at hm
      obtain ⟨x2, y, z, r2, r4, qo, r6, c0, r7, hshape, _, _, huy, huz, hr2, hr4dw, hqo,
        hr6, hc0, hfc⟩ := inlineAfterWs_inv _ _ _ _ hma
      injection hshape with hx2 hshape1
      obtain ⟨wt, hr4, hwtlen⟩ := cross_mid bd rest0 rtl r2 r4 a0 x t0 hlast hdwb hr0 ha y z
        hshape1 huy huz hr2
      subst hr4
      cases hdww : List.dropWhile pyIsSpace wt with
      | nil =>
        have hall := List.dropWhile_eq_nil_iff.mp hdww
        rw [dropWhile_append_all pyIsSpace wt _ hall, List.dropWhile_cons,
            if_pos (by decide), hr0] at hr4dw
        injection hr4dw with h5 _
        rw [← h5] at hqo
        rw [upper_not_quote a0 ha] at hqo
        cases hqo
      | cons v vt =>
        rw [dropWhile_append_cons pyIsSpace wt _ vt v hdww] at hr4dw
        injection hr4dw with h5 h6
        rw [hr6] at h6
        cases vt with
        | nil =>
          rw [List.nil_append] at h6
          injection h6 with h7 _
          exact absurd h7.symm hc0
        | cons c02 vt2 =>
          rw [List.cons_append] at h6
          injection h6 with h7 h8
          obtain ⟨mid, qc, hr7, hcont, hmid, hqc, hqcnl, htail⟩ :=
            findCloseBy_inv isQuote r7 [c0] content rest hfc
          rw [← h8] at hr7
          obtain ⟨wr, hvt2, hrest⟩ := split_at_first_nl mid vt2 rest0 rest qc hr7 hmid hqcnl
          have hrest0split := List.takeWhile_append_dropWhile pyIsSpace rest0
          rw [hr0] at hrest0split
          have hform : rest = (wr ++ '\n' :: List.takeWhile pyIsSpace rest0) ++ (a0 :: rtl) := by
            rw [hrest, List.append_assoc, List.cons_append, hrest0split]
          have ha0rest : a0 ∈ rest := by
            rw [hrest]
            exact List.mem_append.mpr (Or.inr (List.mem_cons_of_mem _
              (mem_of_dropWhile_cons pyIsSpace rest0 rtl a0 hr0)))
          have hpre2len : (wr ++ '\n' :: List.takeWhile pyIsSpace rest0).length
              = wr.length + 1 + (List.takeWhile pyIsSpace rest0).length := by
            simp only [List.length_append, List.length_cons]
            omega
          have htcb : tailConsumed rest ≤ wr.length := by
            apply tailConsumed_le
            · exact takeWhile_length_ne_of_mem pyIsSpace rest a0 ha0rest (upper_not_space a0 ha)
            · intro j hj hjnl
              by_contra hcon
              push_neg at hcon
              have hLb : (List.takeWhile pyIsSpace rest).length
                  ≤ wr.length + 1 + (List.takeWhile pyIsSpace rest0).length := by
                by_contra hcon2
                push_neg at hcon2
                obtain ⟨cw, hcw, hcwP⟩ := takeWhile_prefix_sat pyIsSpace rest _ hcon2
                have hidx : rest[wr.length + 1 + (List.takeWhile pyIsSpace rest0).length]?
                    = some a0 := by
                  rw [hform]
                  have hg := getElem_append_len (wr ++ '\n' :: List.takeWhile pyIsSpace rest0)
                    rtl a0
                  rwa [hpre2len] at hg
                rw [hidx] at hcw
                injection hcw with hcw2
                rw [← hcw2] at hcwP
                rw [upper_not_space a0 ha] at hcwP
                exact Bool.noConfusion hcwP
              have hjlt : j < wr.length + 1 + (List.takeWhile pyIsSpace rest0).length :=
                lt_of_lt_of_le hj hLb
              have hj2 : rest[j]? = (wr ++ '\n' :: List.takeWhile pyIsSpace rest0)[j]? := by
                rw [hform]
                exact List.getElem?_append_left (by omega)
              have hj3 : (wr ++ '\n' :: List.takeWhile pyIsSpace rest0)[j]?
                  = ('\n' :: List.takeWhile pyIsSpace rest0)[j - wr.length]? :=
                List.getElem?_append_right (by omega)
              have hk : j - wr.length = (j - wr.length - 1) + 1 := by omega
              rw [hj2, hj3, hk, List.getElem?_cons_succ] at hjnl
              have hmem : '\n' ∈ List.takeWhile pyIsSpace rest0 := List.getElem?_mem hjnl
              exact hnlA '\n' hmem rfl
          obtain ⟨he, -⟩ := hm
          have e1 := congrArg List.length (List.takeWhile_append_dropWhile pyIsSpace wt)
          rw [hdww] at e1
          simp only [List.length_append, List.length_cons] at e1
          have e2 := congrArg List.length hvt2
          simp only [List.length_append, List.length_cons] at e2
          have e3 := congrArg List.length hrest
          simp only [List.length_append, List.length_cons] at e3
          have e4 : (bd ++ rest0).length = bd.length + rest0.length := List.length_append _ _
          omega

theorem finditerAux_coverage {β : Type} (M : List Char → Option (Nat × β)) (text : List Char)
    (p K : Nat) (G : β)
    (hp : p < text.length)
    (hanch : anchorAt text p)
    (hM : M (text.drop p) = some (K, G))
    (hint : ∀ q e g, q < p → anchorAt text q → M (text.drop q) = some (e, g) →
      q + max e 1 ≤ p ∨ (g = G ∧ q + e = p + K)) :
    ∀ (fuel pos : Nat) (anch : Bool), pos ≤ p → p < fuel + pos →
      (anch = true ↔ anchorAt text pos) →
      ∃ q k, (q, k, G) ∈ finditerAux M fuel (text.drop pos) anch pos ∧ q + k = p + K := by
  intro fuel
  induction fuel with
  | zero =>
    intro pos anch hpos hfuel _
    omega
  | succ n ih =>
    intro pos anch hpos hfuel hinv
    cases hs : text.drop pos with
    | nil =>
      rw [List.drop_eq_nil_iff] at hs
      omega
    | cons cc srest =>
      have hcc : text[pos]? = some cc := by
        have hgd := List.getElem?_drop text pos 0
        rw [hs] at hgd
        simpa using hgd.symm
      have hdrop1 : text.drop (pos + 1) = srest := by
        have hdd := List.drop_drop 1 pos text
        rw [hs] at hdd
        simpa using hdd.symm
      have hstep : (decide (cc = '\n') = true) ↔ anchorAt text (pos + 1) := by
        unfold anchorAt
        simp only [decide_eq_true_eq]
        constructor
        · intro hcc2
          right
          rw [Nat.add_sub_cancel, hcc, hcc2]
        · intro hor
          rcases hor with h0 | hnl2
          · exact absurd h0 (Nat.succ_ne_zero pos)
          · rw [Nat.add_sub_cancel, hcc] at hnl2
            injection hnl2 with h9
      cases anch with
      | false =>
        have hnanch : ¬ anchorAt text pos := fun hcon => Bool.noConfusion (hinv.mpr hcon)
        have hplt : pos < p := by
          rcases Nat.lt_or_ge pos p with h | h
          · exact h
          · have hpe : pos = p := by omega
            subst hpe
            exact absurd hanch hnanch
        obtain ⟨q, k, hmem, hqk⟩ := ih (pos + 1) (decide (cc = '\n')) (by omega) (by omega) hstep
        refine ⟨q, k, ?_, hqk⟩
        simp only [finditerAux, Bool.false_eq_true, reduceIte]
        rw [hdrop1] at hmem
        exact hmem
      | true =>
        have hanchpos : anchorAt text pos := hinv.mp rfl
        by_cases hpp : pos = p
        · subst hpp
          rw [hs] at hM
          refine ⟨pos, K, ?_, rfl⟩
          simp only [finditerAux, reduceIte, hM]
          exact List.mem_cons_self _ _
        · have hplt : pos < p := by omega
          cases hMs : M (cc :: srest) with
          | none =>
            obtain ⟨q, k, hmem, hqk⟩ := ih (pos + 1) (decide (cc = '\n')) (by omega) (by omega) hstep
            refine ⟨q, k, ?_, hqk⟩
            simp only [finditerAux, reduceIte, hMs]
            rw [hdrop1] at hmem
            exact hmem
          | some kg =>
            obtain ⟨e, g⟩ := kg
            have hMs2 : M (text.drop pos) = some (e, g) := by rw [hs]; exact hMs
            rcases hint pos e g hplt hanchpos hMs2 with hle | ⟨hgG, hend⟩
            · have hk1 : 1 ≤ max e 1 := le_max_right e 1
              have hdropk : text.drop (pos + max e 1) = (cc :: srest).drop (max e 1) := by
                have hdd := List.drop_drop (max e 1) pos text
                rw [hs] at hdd
                exact hdd.symm
              have hanch2 : (decide ((cc :: srest)[max e 1 - 1]? = some '\n') = true)
                  ↔ anchorAt text (pos + max e 1) := by
                have hgi := List.getElem?_drop text pos (max e 1 - 1)
                rw [hs] at hgi
                unfold anchorAt
                rw [hgi]
                simp only [decide_eq_true_eq]
                constructor
                · intro h10
                  right
                  have hix : pos + max e 1 - 1 = pos + (max e 1 - 1) := by omega
                  rw [hix]
                  exact h10
                · intro hor
                  rcases hor with h0 | h11
                  · exact absurd h0 (by omega)
                  · have hix : pos + max e 1 - 1 = pos + (max e 1 - 1) := by omega
                    rw [hix] at h11
                    exact h11
              obtain ⟨q, k, hmem, hqk⟩ := ih (pos + max e 1)
                (decide ((cc :: srest)[max e 1 - 1]? = some '\n')) hle (by omega) hanch2
              refine ⟨q, k, ?_, hqk⟩
              simp only [finditerAux, reduceIte, hMs]
              rw [hdropk] at hmem
              exact List.mem_cons_of_mem _ hmem
            · subst hgG
              refine ⟨pos, e, ?_, hend⟩
              simp only [finditerAux, reduceIte, hMs]
              exact List.mem_cons_self _ _

theorem finditer_coverage {β : Type} (M : List Char → Option (Nat × β)) (text : List Char)
    (p K : Nat) (G : β)
    (hp : p < text.length)
    (hanch : anchorAt text p)
    (hM : M (text.drop p) = some (K, G))
    (hint : ∀ q e g, q < p → anchorAt text q → M (text.drop q) = some (e, g) →
      q + max e 1 ≤ p ∨ (g = G ∧ q + e = p + K)) :
    ∃ q k, (q, k, G) ∈ finditer M text ∧ q + k = p + K := by
  have hcov := finditerAux_coverage M text p K G hp hanch hM hint (text.length + 1) 0 true
    (Nat.zero_le p) (by omega) (by
      constructor
      · intro _; exact Or.inl rfl
      · intro _; rfl)
  unfold finditer
  simpa using hcov

/-! ## Claim theorems -/

/-- C1, counterexample: on a block with both a preceding full-line comment
(`# Kingdom of Example`) and a `name = "Other"` key, the extractor resolves
the candidate to "Other" — the `name=` key, not the comment — so the claimed
priority (comment (a)/(b) before `name=` (c)) is false on the code. -/
theorem c1_counterexample :
    find_tags_in_country_text blockBothText = [(str "ABC", some (str "Other"))] ∧
    (str "ABC", some (str "Kingdom of Example")) ∉ find_tags_in_country_text blockBothText := by
  decide

/-- C1, amended: for a block-form tag definition the code's priority order
is `name=` inside the block first, then the block's first full-comment
line, then the trailing/preceding comment: whenever a terminated block
contains a `name = "…"` key, that key's stripped, newline-flattened value
is the resolved candidate regardless of any comment; with no comment and a
`name=` key present the key's value results, as the claim's second half
says. -/
theorem c1_name_key_beats_comments (text : List Char) (idx : Nat) (tag nm : List Char)
    (endRel : Nat)
    (h1 : ((text.drop idx).dropWhile pyIsSpace).head? = some '\x7b')
    (h2 : braceScan (text.drop (openPosOf text idx)) = some endRel)
    (h3 : nameInBlockSearch (sub text (openPosOf text idx + 1) (openPosOf text idx + endRel))
        = some nm) :
    processTagMatch text idx tag = [(tag, some (replaceNlSp (pyStrip nm)))] := by
  unfold processTagMatch
  cases hdw : (text.drop idx).dropWhile pyIsSpace with
  | nil => rw [hdw] at h1; cases h1
  | cons first rest =>
    rw [hdw] at h1
    have hf : first = '\x7b' := by simpa using h1
    subst hf
    simp only [ne_eq, not_true_eq_false, if_false, reduceIte, h2, h3]

/-- C1, witness for the amended theorem, at the concrete block that also
refutes the original claim. -/
theorem c1_witness :
    processTagMatch blockBothText 26 (str "ABC") = [(str "ABC", some (str "Other"))] :=
  (c1_name_key_beats_comments blockBothText 26 (str "ABC") (str "Other") 17
    (by decide) (by decide) (by decide)).trans (by decide)

/-- C4, counterexample: the block-form definition `ABC = {` with no closing
brace yields no occurrence at all — the tag is silently dropped rather than
kept with a block extending to end of file. -/
theorem c4_counterexample :
    find_tags_in_country_text unterminatedText = [] := by decide

/-- C4, amended: extraction over an unterminated block does not fail, but
the match contributes no occurrence: whenever the brace scan finds no
closer, the block-scan body returns the empty contribution. -/
theorem c4_unterminated_dropped (text : List Char) (idx : Nat) (tag : List Char)
    (h1 : ((text.drop idx).dropWhile pyIsSpace).head? = some '\x7b')
    (h2 : braceScan (text.drop (openPosOf text idx)) = none) :
    processTagMatch text idx tag = [] := by
  unfold processTagMatch
  cases hdw : (text.drop idx).dropWhile pyIsSpace with
  | nil => rfl
  | cons first rest =>
    rw [hdw] at h1
    have hf : first = '\x7b' := by simpa using h1
    subst hf
    simp only [ne_eq, not_true_eq_false, if_false, reduceIte, h2]

/-- C4, witness for the amended theorem. -/
theorem c4_witness : processTagMatch unterminatedText 5 (str "ABC") = [] :=
  c4_unterminated_dropped unterminatedText 5 (str "ABC") (by decide) (by decide)

/-- C7, counterexample: a trailing `ZZZ =` followed by nothing is skipped by
the block scan — no occurrence is recorded — and the resulting registry has
no `ZZZ - ZZZ` line, contrary to the claim's parenthetical. -/
theorem c7_counterexample :
    find_tags_in_country_text (str "ZZZ =") = [] ∧
    generate trailingStore = str "All modded tags added to setup in alphabetical order:\n\n" := by
  decide

/-- C7, amended: a `TAG =` match is recorded as an occurrence with no
candidate name exactly when some non-whitespace character follows the `=`
and it is not an opening brace; when nothing but whitespace (or end of
input) follows, the match is skipped and yields no occurrence. -/
theorem c7_nameless_occurrence_cases (text : List Char) (idx : Nat) (tag : List Char) :
    ((text.drop idx).dropWhile pyIsSpace = [] → processTagMatch text idx tag = []) ∧
    (∀ c rest, (text.drop idx).dropWhile pyIsSpace = c :: rest → c ≠ '\x7b' →
      processTagMatch text idx tag = [(tag, none)]) := by
  constructor
  · intro h
    unfold processTagMatch
    rw [h]
  · intro c rest h hc
    unfold processTagMatch
    rw [h]
    simp only [if_pos hc]

/-- C7, witness for the amended theorem. -/
theorem c7_witness :
    processTagMatch (str "ZZZ =") 5 (str "ZZZ") = [] ∧
    processTagMatch (str "ZZZ = x") 5 (str "ZZZ") = [(str "ZZZ", none)] :=
  ⟨(c7_nameless_occurrence_cases (str "ZZZ =") 5 (str "ZZZ")).1 (by decide),
   (c7_nameless_occurrence_cases (str "ZZZ = x") 5 (str "ZZZ")).2 'x' [] (by decide) (by decide)⟩

/-- C6: the comment normalizer truncates a line at its first `#` only when
the prefix before the marker holds an even number of `"` and an even number
of `'` characters, and a line whose stripped form begins with a comment
marker is preserved verbatim. -/
theorem c6_truncation_quote_safety (line : List Char) :
    (strip_inline_comments_line line ≠ line →
      line.contains '#' = true ∧
      (line.takeWhile fun c => c ≠ '#').count '"' % 2 = 0 ∧
      (line.takeWhile fun c => c ≠ '#').count '\'' % 2 = 0 ∧
      strip_inline_comments_line line = line.takeWhile fun c => c ≠ '#') ∧
    ((pyStrip line).head? = some '#' ∨ ['/', '/'].isPrefixOf (pyStrip line) →
      strip_inline_comments_line line = line) := by
  constructor
  · intro hne
    simp only [strip_inline_comments_line] at hne ⊢
    split at hne
    · exact absurd rfl hne
    · rename_i hnotcomment
      split at hne
      · rename_i hcont
        split at hne
        · rename_i heven
          have heven' := heven
          simp only [Bool.and_eq_true, decide_eq_true_eq] at heven'
          refine ⟨hcont, heven'.1, heven'.2, ?_⟩
          rw [if_neg hnotcomment, if_pos hcont, if_pos heven]
        · exact absurd rfl hne
      · exact absurd rfl hne
  · intro h
    simp only [strip_inline_comments_line]
    have : (decide ((pyStrip line).head? = some '#')
        || ['/', '/'].isPrefixOf (pyStrip line)) = true := by
      rcases h with h | h
      · simp [h]
      · simp [h]
    rw [if_pos this]

/-- C6, witness: a full-comment line is preserved verbatim (by the theorem),
and `X = "value # not a comment"` is not truncated (by contraposition of
the theorem's evenness requirement: the prefix holds one `"`). -/
theorem c6_witness :
    strip_inline_comments_line (str "# Royal Annals") = str "# Royal Annals" ∧
    strip_inline_comments_line (str "X = \"value # not a comment\"")
      = str "X = \"value # not a comment\"" := by
  constructor
  · exact (c6_truncation_quote_safety (str "# Royal Annals")).2 (Or.inl (by decide))
  · by_contra hne
    have h := (c6_truncation_quote_safety (str "X = \"value # not a comment\"")).1 hne
    exact absurd h.2.1 (by decide)

/-- C8: with `--dry-run` the tool prints only the found-tag summaries and
the generic dry-run notice and returns, mutating no file — but the
would-remove counts are never computed or printed, because the
count-reporting block (source lines 183-189) sits after the dry-run early
return and is unreachable.  Evaluated at a log carrying one organization
tag and one dependency tag. -/
theorem c8_dry_run_reports_no_counts :
    cleanup_main logEx0 orgEx0 dipEx0 true false =
      ⟨[.foundOrg 1 [str "GRF"], .foundDep 1 [str "CWM"], .dryRunNotice],
        orgEx0, dipEx0, false, false⟩ ∧
    (∀ n, CleanupMsg.dryRunOrgCount n ∉ (cleanup_main logEx0 orgEx0 dipEx0 true false).printed ∧
          CleanupMsg.dryRunDipCount n ∉ (cleanup_main logEx0 orgEx0 dipEx0 true false).printed) := by
  have h0 : cleanup_main logEx0 orgEx0 dipEx0 true false =
      ⟨[.foundOrg 1 [str "GRF"], .foundDep 1 [str "CWM"], .dryRunNotice],
        orgEx0, dipEx0, false, false⟩ := by decide
  refine ⟨h0, fun n => ⟨?_, ?_⟩⟩
  · intro hmem
    rw [h0] at hmem
    simp at hmem
  · intro hmem
    rw [h0] at hmem
    simp at hmem

/-- C8, witness: the dry-run output contains no organization count line. -/
theorem c8_witness :
    CleanupMsg.dryRunOrgCount 0 ∉ (cleanup_main logEx0 orgEx0 dipEx0 true false).printed :=
  (c8_dry_run_reports_no_counts.2 0).1

/-- C9: the generator is deterministic (a pure function of the selected
input files) and idempotent: writing the produced registry back to
`OUTPUT_PATH` changes neither the `*.txt` country-file selection nor the
localization-candidate selection — the `.info` registry matches neither
glob — so a second run over the updated store produces a byte-identical
registry; the written registry never feeds back into the scan. -/
theorem c9_idempotent_generator (store : List (List Char × List Char)) :
    generate (setStore store OUTPUT_PATH (generate store)) = generate store := by
  unfold generate mainTagMap
  rw [selectCountry_setStore, selectLocaleFiles_setStore]

/-- C3: for every tag with an occurrence anywhere in the scanned corpus, the
written registry contains exactly one entry for it (the filter of the
registry pairs by that tag is a singleton), and that entry's name is the
non-empty result of the three-tier resolution: the first truthy occurrence
candidate, else the localization name, else the tag itself. -/
theorem c3_registry_total (store : List (List Char × List Char)) (tag : List Char)
    (h : tag ∈ (mainOccurrences (selectCountryFiles store)).map fun p => p.1) :
    ∃ es, lookupA (mainOccurrences (selectCountryFiles store)) tag = some es ∧
      (registryPairs (mainTagMap store)).filter (fun p => decide (p.1 = tag))
        = [(tag, specResolvedName (es.map fun e => e.2)
              (lookupA (index_localization_files (selectLocaleFiles store)) tag) tag)] ∧
      specResolvedName (es.map fun e => e.2)
          (lookupA (index_localization_files (selectLocaleFiles store)) tag) tag ≠ [] := by
  obtain ⟨es, hfind⟩ := find?_of_mem_keys _ tag h
  have hlen : tag.length = 3 := mainOccurrences_keys_len _ tag h
  have htagne : tag ≠ [] := by
    intro he
    rw [he] at hlen
    cases hlen
  have hne : specResolvedName (es.map fun e => e.2)
      (lookupA (index_localization_files (selectLocaleFiles store)) tag) tag ≠ [] := by
    unfold specResolvedName
    cases hf : (es.map fun e => e.2).find? pyTruthy with
    | some n =>
      have hnt := List.find?_some hf
      cases n with
      | none => cases hnt
      | some v =>
        have hv : v ≠ [] := by
          intro he
          rw [he] at hnt
          cases hnt
        simpa using hv
    | none =>
      cases hloc : lookupA (index_localization_files (selectLocaleFiles store)) tag with
      | none => simpa using htagne
      | some l =>
        cases hle : l.isEmpty with
        | true => simpa [hle] using htagne
        | false =>
          have : l ≠ [] := by
            intro he
            rw [he] at hle
            cases hle
          simpa [hle] using this
  have hlook : lookupA (mainTagMap store) tag
      = some (some (specResolvedName (es.map fun e => e.2)
          (lookupA (index_localization_files (selectLocaleFiles store)) tag) tag)) :=
    resolvedLookup _ _ tag es hfind
  refine ⟨es, ?_, ?_, hne⟩
  · unfold lookupA
    rw [hfind]
    rfl
  · have hkeys := mainTagMap_keys store
    have hw := registryPairs_filter (mainTagMap store) tag
        (by rw [hkeys]; exact mainOccurrences_keys_nodup _)
        (by rw [hkeys]; exact h)
    rw [hw]
    unfold writtenName
    rw [hlook]
    simp only [List.cons.injEq, Prod.mk.injEq, true_and, and_true]
    rw [if_neg (by simpa using hne)]

/-- C3, witness: in the mixed store the tag `GRF` (block with no structural
name) resolves through the localization index to `Great Republic`. -/
theorem c3_witness :
    (registryPairs (mainTagMap mixedStore)).filter (fun p => decide (p.1 = str "GRF"))
      = [(str "GRF", str "Great Republic")] := by
  obtain ⟨es, h1, h2, h3⟩ := c3_registry_total mixedStore (str "GRF") (by decide)
  have hes : es = [(str "in_game/setup/countries/a.txt", none)] :=
    Option.some.inj ((by decide :
      lookupA (mainOccurrences (selectCountryFiles mixedStore)) (str "GRF")
        = some [(str "in_game/setup/countries/a.txt", none)]).symm.trans h1).symm
  rw [h2, hes]
  decide

/-- C5: (i) in the localization index, the first extracted pair for a tag —
files in sorted order, within a file all `LOCALE_LINE_RE` matches then all
`LOCALE_ALT_RE` matches — wins, and later pairs for the same tag are
discarded; (ii) the index is advisory-only: a tag whose occurrences carry a
truthy structural candidate resolves to that first candidate for every
possible localization index, so a structural name is never overridden. -/
theorem c5_locale_first_wins_advisory :
    (∀ (files : List (List Char × List Char)) (tag : List Char),
      lookupA (index_localization_files files) tag
        = ((files.flatMap fun f => localePairsOfText f.2).find?
            fun p => decide (p.1 = tag)).map fun p => p.2) ∧
    (∀ (locs : List (List Char × List Char)) (d : OccDict) (tag : List Char)
        (es : List (List Char × Option (List Char))),
      (d.find? fun p => decide (p.1 = tag)) = some (tag, es) →
      pyTruthy (chooseName es) = true →
      lookupA (applyTagFallback (applyLocales locs (tagMapInit d))) tag
        = some (chooseName es)) := by
  constructor
  · intro files tag
    unfold index_localization_files
    rw [lookupA_foldl_setdefault]
    rfl
  · intro locs d tag es hfind ht
    rw [resolvedLookup locs d tag es hfind]
    congr 1
    unfold specResolvedName
    rw [chooseName_find_truthy es ht]
    cases hcv : chooseName es with
    | none => rw [hcv] at ht; cases ht
    | some v => rfl

/-- C5, witness: with two localization lines for `GRF` the first wins, and a
tag with a structural `name=` candidate keeps it against a conflicting
localization index. -/
theorem c5_witness :
    lookupA (index_localization_files
        [(str "main_menu/localization/a.yml", str "GRF: \"One\"\nGRF: \"Two\"\n")])
      (str "GRF") = some (str "One") ∧
    lookupA (applyTagFallback (applyLocales [(str "BBB", str "Wrong")]
        (tagMapInit [(str "BBB", [(str "f.txt", some (str "Beta"))])])))
      (str "BBB") = some (some (str "Beta")) := by
  constructor
  · rw [c5_locale_first_wins_advisory.1
      [(str "main_menu/localization/a.yml", str "GRF: \"One\"\nGRF: \"Two\"\n")] (str "GRF")]
    decide
  · rw [c5_locale_first_wins_advisory.2 [(str "BBB", str "Wrong")]
      [(str "BBB", [(str "f.txt", some (str "Beta"))])] (str "BBB")
      [(str "f.txt", some (str "Beta"))] (by decide) (by decide)]
    decide

/-- C2, counterexample: a single inline assignment `ABC = "Name"` in one
file yields two raw occurrences from that one file, and the duplicate
report lists the tag even though its occurrences all come from a single
file — the report keys on raw occurrence count, not distinct files. -/
theorem c2_counterexample :
    lookupA (mainOccurrences (selectCountryFiles inlineStore)) (str "ABC")
      = some [(str "in_game/setup/countries/a.txt", some (str "Name")),
              (str "in_game/setup/countries/a.txt", none)] ∧
    dupReportOf inlineStore = [(str "ABC", [str "in_game/setup/countries/a.txt"])] := by
  decide

/-- C2, amended: a tag is reported as a duplicate iff it has more than one
raw occurrence (across all files, occurrences within one file counting
separately), and every reported tag's file list holds each distinct source
file exactly once, sorted. -/
theorem c2_duplicates_by_raw_count (store : List (List Char × List Char)) (tag : List Char) :
    ((∃ fs, (tag, fs) ∈ dupReportOf store) ↔
      ∃ es, lookupA (mainOccurrences (selectCountryFiles store)) tag = some es ∧
        1 < es.length) ∧
    (∀ fs es, (tag, fs) ∈ dupReportOf store →
      lookupA (mainOccurrences (selectCountryFiles store)) tag = some es →
      List.Sorted strLe fs ∧ fs.Nodup ∧ (∀ p, p ∈ fs ↔ ∃ e ∈ es, e.1 = p)) := by
  have hnd := mainOccurrences_keys_nodup (selectCountryFiles store)
  constructor
  · constructor
    · rintro ⟨fs, hmem⟩
      simp only [dupReportOf] at hmem
      obtain ⟨t, ht, hte⟩ := List.mem_map.mp hmem
      injection hte with h1 h2
      subst h1
      have ht2 : t ∈ (List.filter (fun p => decide (1 < p.2.length))
          (mainOccurrences (selectCountryFiles store))).map fun p => p.1 :=
        (List.perm_insertionSort _ _).mem_iff.mp ht
      obtain ⟨es, hfes⟩ := find?_of_mem_keys _ t ht2
      have hmemd := List.mem_of_find?_eq_some hfes
      have hp := List.of_mem_filter hmemd
      have hfind : ((mainOccurrences (selectCountryFiles store)).find?
          fun p => decide (p.1 = t)) = some (t, es) :=
        find?_eq_of_mem_nodup _ t es hnd (List.mem_of_mem_filter hmemd)
      refine ⟨es, ?_, by simpa using hp⟩
      unfold lookupA
      rw [hfind]
      rfl
    · rintro ⟨es, hles, hlen⟩
      unfold lookupA at hles
      obtain ⟨q, hq, hq2⟩ := Option.map_eq_some'.mp hles
      have hq1 : q.1 = tag := find?_key_eq hq
      have hqe : q = (tag, es) := by
        obtain ⟨q1, q2⟩ := q
        simp only at hq1 hq2
        rw [hq1, hq2]
      rw [hqe] at hq
      have hmemd : (tag, es) ∈ mainOccurrences (selectCountryFiles store) :=
        List.mem_of_find?_eq_some hq
      have hdup : (tag, es) ∈ (mainOccurrences (selectCountryFiles store)).filter
          (fun p => decide (1 < p.2.length)) :=
        List.mem_filter.mpr ⟨hmemd, by simpa using hlen⟩
      have hkey : tag ∈ ((mainOccurrences (selectCountryFiles store)).filter
          (fun p => decide (1 < p.2.length))).map fun p => p.1 :=
        List.mem_map.mpr ⟨(tag, es), hdup, rfl⟩
      refine ⟨((((lookupA ((mainOccurrences (selectCountryFiles store)).filter
          (fun p => decide (1 < p.2.length))) tag).getD []).map
            fun e => e.1).dedup).insertionSort strLe, ?_⟩
      simp only [dupReportOf]
      exact List.mem_map.mpr ⟨tag, (List.perm_insertionSort _ _).mem_iff.mpr hkey, rfl⟩
  · intro fs es hmem hles
    simp only [dupReportOf] at hmem
    obtain ⟨t, ht, hte⟩ := List.mem_map.mp hmem
    injection hte with h1 h2
    subst h1
    have hfs : fs = ((((lookupA ((mainOccurrences (selectCountryFiles store)).filter
        (fun p => decide (1 < p.2.length))) t).getD []).map fun e => e.1).dedup).insertionSort
          strLe := h2.symm
    unfold lookupA at hles
    obtain ⟨q, hq, hq2⟩ := Option.map_eq_some'.mp hles
    have hq1 : q.1 = t := find?_key_eq hq
    have hqe : q = (t, es) := by
      obtain ⟨q1, q2⟩ := q
      simp only at hq1 hq2
      rw [hq1, hq2]
    rw [hqe] at hq
    have hlookdup : lookupA ((mainOccurrences (selectCountryFiles store)).filter
        (fun p => decide (1 < p.2.length))) t = some es := by
      unfold lookupA
      rw [find?_filter_nodup _ _ _ hnd, hq]
      have ht2 : t ∈ (List.filter (fun p => decide (1 < p.2.length))
          (mainOccurrences (selectCountryFiles store))).map fun p => p.1 :=
        (List.perm_insertionSort _ _).mem_iff.mp ht
      obtain ⟨es2, hfes2⟩ := find?_of_mem_keys _ t ht2
      have hmemd2 := List.mem_of_find?_eq_some hfes2
      have hp2 := List.of_mem_filter hmemd2
      have h12 := find?_eq_of_mem_nodup _ t es2 hnd (List.mem_of_mem_filter hmemd2)
      have hsome : some (t, es2) = some (t, es) := h12.symm.trans hq
      injection hsome with hpair
      injection hpair with _ hes2
      rw [hes2] at hp2
      simp only at hp2
      simp [hp2]
    rw [hfs, hlookdup]
    refine ⟨List.sorted_insertionSort strLe _, ?_, ?_⟩
    · exact (List.perm_insertionSort _ _).nodup_iff.mpr (List.nodup_dedup _)
    · intro p
      rw [(List.perm_insertionSort _ _).mem_iff, List.mem_dedup]
      constructor
      · intro hp
        obtain ⟨e, he, he1⟩ := List.mem_map.mp hp
        exact ⟨e, he, he1⟩
      · rintro ⟨e, he, he1⟩
        exact List.mem_map.mpr ⟨e, he, he1⟩

/-- C2, witness for the amended theorem: the same tag in two files is
reported with both files, sorted, once each. -/
theorem c2_witness :
    ∃ fs, (str "QQQ", fs) ∈ dupReportOf
      [(str "in_game/setup/countries/b.txt", str "QQQ = x\n"),
       (str "in_game/setup/countries/a.txt", str "QQQ = y\n")] :=
  (c2_duplicates_by_raw_count _ (str "QQQ")).1.mpr
    ⟨[(str "in_game/setup/countries/a.txt", none),
      (str "in_game/setup/countries/b.txt", none)], by decide, by decide⟩


/-- C10: for every text containing, at a line of the text, an inline
assignment line of the exact shape `TAG = "Name"` (optional line whitespace,
three capitals, `=`, a quoted newline-free nonempty name, optional trailing
line whitespace), the occurrence extractor returns both an occurrence with
the stripped quoted text as candidate name (from the inline scan) and an
occurrence with no candidate name (from the block scan, whose `TAG =` match
is followed by a quote, not a brace), so the tag has at least two raw
occurrences. -/
theorem c10_inline_double_occurrence
    (before wsA wsB wsC wsD content after : List Char) (a b c q1 q2 : Char)
    (hanch : before = [] ∨ before.getLast? = some '\n')
    (hwsA : ∀ ch ∈ wsA, pyIsSpace ch = true ∧ ch ≠ '\n')
    (hwsB : ∀ ch ∈ wsB, pyIsSpace ch = true ∧ ch ≠ '\n')
    (hwsC : ∀ ch ∈ wsC, pyIsSpace ch = true ∧ ch ≠ '\n')
    (hwsD : ∀ ch ∈ wsD, pyIsSpace ch = true ∧ ch ≠ '\n')
    (ha : isUpper a = true) (hb : isUpper b = true) (hc : isUpper c = true)
    (hq1 : isQuote q1 = true) (hq2 : isQuote q2 = true)
    (hcne : content ≠ [])
    (hcontent : ∀ ch ∈ content, isQuote ch = false ∧ ch ≠ '\n')
    (hafter : after = [] ∨ after.head? = some '\n') :
    ([a, b, c], some (pyStrip content))
        ∈ find_tags_in_country_text
            (inlineLineText before wsA wsB wsC wsD content after a b c q1 q2) ∧
    ([a, b, c], (none : Option (List Char)))
        ∈ find_tags_in_country_text
            (inlineLineText before wsA wsB wsC wsD content after a b c q1 q2) ∧
    2 ≤ (find_tags_in_country_text
            (inlineLineText before wsA wsB wsC wsD content after a b c q1 q2)).countP
          (fun occ => decide (occ.1 = [a, b, c])) := by
  cases content with
  | nil => exact absurd rfl hcne
  | cons c0 ctail =>
    have hc0nl : c0 ≠ '\n' := (hcontent c0 (List.mem_cons_self c0 ctail)).2
    have hctail : ∀ ch ∈ ctail, isQuote ch = false ∧ ch ≠ '\n' :=
      fun ch hch => hcontent ch (List.mem_cons_of_mem c0 hch)
    have hT : inlineLineText before wsA wsB wsC wsD (c0 :: ctail) after a b c q1 q2
        = before ++ (wsA ++ a :: b :: c :: (wsB ++ '=' :: (wsC ++ q1 :: c0 :: (ctail ++ q2 :: (wsD ++ after))))) := by
      simp only [inlineLineText, List.cons_append]
    have hr0 : List.dropWhile pyIsSpace (wsA ++ a :: b :: c :: (wsB ++ '=' :: (wsC ++ q1 :: c0 :: (ctail ++ q2 :: (wsD ++ after)))))
        = a :: (b :: c :: (wsB ++ '=' :: (wsC ++ q1 :: c0 :: (ctail ++ q2 :: (wsD ++ after))))) := by
      rw [dropWhile_append_all pyIsSpace wsA _ (fun ch hch => (hwsA ch hch).1)]
      exact dropWhile_cons_neg pyIsSpace a _ (upper_not_space a ha)
    have hanchp : anchorAt (before ++ (wsA ++ a :: b :: c :: (wsB ++ '=' :: (wsC ++ q1 :: c0 :: (ctail ++ q2 :: (wsD ++ after)))))) before.length := by
      rcases hanch with rfl | hlast
      · exact Or.inl rfl
      · right
        have hblen : 0 < before.length := by
          cases before with
          | nil => simp at hlast
          | cons hd tl => simp
        rw [List.getElem?_append_left (by omega), ← List.getLast?_eq_getElem?]
        exact hlast
    have hpT : before.length < (before ++ (wsA ++ a :: b :: c :: (wsB ++ '=' :: (wsC ++ q1 :: c0 :: (ctail ++ q2 :: (wsD ++ after)))))).length := by
      simp only [List.length_append, List.length_cons]
      omega
    have hdropP : (before ++ (wsA ++ a :: b :: c :: (wsB ++ '=' :: (wsC ++ q1 :: c0 :: (ctail ++ q2 :: (wsD ++ after)))))).drop before.length = wsA ++ a :: b :: c :: (wsB ++ '=' :: (wsC ++ q1 :: c0 :: (ctail ++ q2 :: (wsD ++ after)))) := List.drop_left before _
    have hMi : inlineMatchAt ((before ++ (wsA ++ a :: b :: c :: (wsB ++ '=' :: (wsC ++ q1 :: c0 :: (ctail ++ q2 :: (wsD ++ after)))))).drop before.length)
        = some (wsA.length + wsB.length + wsC.length + ctail.length + 7 + tailConsumed (wsD ++ after), ([a, b, c], c0 :: ctail)) := by
      rw [hdropP]
      exact inlineMatchAt_eval wsA wsB wsC wsD ctail after a b c q1 q2 c0
        (fun ch hch => (hwsA ch hch).1) (fun ch hch => (hwsB ch hch).1)
        (fun ch hch => (hwsC ch hch).1) hwsD ha hb hc hq1 hq2 hc0nl hctail hafter
    have hMt : tagLineMatchAt ((before ++ (wsA ++ a :: b :: c :: (wsB ++ '=' :: (wsC ++ q1 :: c0 :: (ctail ++ q2 :: (wsD ++ after)))))).drop before.length)
        = some (wsA.length + wsB.length + 4, [a, b, c]) := by
      rw [hdropP]
      exact tagLineMatchAt_eval wsA wsB _ a b c
        (fun ch hch => (hwsA ch hch).1) (fun ch hch => (hwsB ch hch).1) ha hb hc
    have hnlA : ∀ ch ∈ List.takeWhile pyIsSpace (wsA ++ a :: b :: c :: (wsB ++ '=' :: (wsC ++ q1 :: c0 :: (ctail ++ q2 :: (wsD ++ after))))), ch ≠ '\n' := by
      have htw : List.takeWhile pyIsSpace (wsA ++ a :: b :: c :: (wsB ++ '=' :: (wsC ++ q1 :: c0 :: (ctail ++ q2 :: (wsD ++ after))))) = wsA := by
        rw [takeWhile_append_all pyIsSpace wsA _ (fun ch hch => (hwsA ch hch).1),
            List.takeWhile_cons, if_neg (by simp [upper_not_space a ha]), List.append_nil]
      rw [htw]
      intro ch hch
      exact (hwsA ch hch).2
    have hint_i : ∀ q e g, q < before.length → anchorAt (before ++ (wsA ++ a :: b :: c :: (wsB ++ '=' :: (wsC ++ q1 :: c0 :: (ctail ++ q2 :: (wsD ++ after)))))) q →
        inlineMatchAt ((before ++ (wsA ++ a :: b :: c :: (wsB ++ '=' :: (wsC ++ q1 :: c0 :: (ctail ++ q2 :: (wsD ++ after)))))).drop q) = some (e, g) →
        q + max e 1 ≤ before.length ∨
          (g = ([a, b, c], c0 :: ctail) ∧ q + e = before.length + (wsA.length + wsB.length + wsC.length + ctail.length + 7 + tailConsumed (wsD ++ after))) := by
      intro q e g hq hqa hqm
      have hdq : (before ++ (wsA ++ a :: b :: c :: (wsB ++ '=' :: (wsC ++ q1 :: c0 :: (ctail ++ q2 :: (wsD ++ after)))))).drop q = before.drop q ++ (wsA ++ a :: b :: c :: (wsB ++ '=' :: (wsC ++ q1 :: c0 :: (ctail ++ q2 :: (wsD ++ after))))) := by
        rw [List.drop_append_eq_append_drop,
            show q - before.length = 0 from by omega, List.drop_zero]
      have hbdne : before.drop q ≠ [] := by
        intro he
        rw [List.drop_eq_nil_iff] at he
        omega
      have hblast : before.getLast? = some '\n' := by
        rcases hanch with rfl | h
        · simp at hq
        · exact h
      have hbdlast : (before.drop q).getLast? = some '\n' := by
        rw [getLast?_drop_of_ne_nil before q hbdne]
        exact hblast
      have hlbd : (before.drop q).length = before.length - q := List.length_drop q before
      rw [hdq] at hqm
      cases hbdw : List.dropWhile pyIsSpace (before.drop q) with
      | nil =>
        have hallws : ∀ ch ∈ before.drop q, pyIsSpace ch = true :=
          List.dropWhile_eq_nil_iff.mp hbdw
        rw [show before.drop q ++ (wsA ++ a :: b :: c :: (wsB ++ '=' :: (wsC ++ q1 :: c0 :: (ctail ++ q2 :: (wsD ++ after)))))
            = (before.drop q ++ wsA) ++ (a :: b :: c :: (wsB ++ '=' :: (wsC ++ q1 :: c0 :: (ctail ++ q2 :: (wsD ++ after)))))
            from by rw [List.append_assoc]] at hqm
        rw [inlineMatchAt_eval (before.drop q ++ wsA) wsB wsC wsD ctail after a b c q1 q2 c0
          (fun ch hch => by
            rcases List.mem_append.mp hch with h | h
            · exact hallws ch h
            · exact (hwsA ch h).1)
          (fun ch hch => (hwsB ch hch).1) (fun ch hch => (hwsC ch hch).1)
          hwsD ha hb hc hq1 hq2 hc0nl hctail hafter] at hqm
        simp only [Option.some.injEq, Prod.mk.injEq] at hqm
        obtain ⟨hv, hgp⟩ := hqm
        right
        refine ⟨hgp.symm, ?_⟩
        rw [← hv]
        simp only [List.length_append]
        omega
      | cons x t0 =>
        left
        have hbound := inline_cross_bound (before.drop q) (wsA ++ a :: b :: c :: (wsB ++ '=' :: (wsC ++ q1 :: c0 :: (ctail ++ q2 :: (wsD ++ after))))) _ a e g hbdlast
          (by rw [hbdw]; exact List.cons_ne_nil x t0) hr0 ha hnlA hqm
        have hmax : max e 1 ≤ e + 1 := Nat.max_le.mpr ⟨by omega, by omega⟩
        omega
    have hint_t : ∀ q e g, q < before.length → anchorAt (before ++ (wsA ++ a :: b :: c :: (wsB ++ '=' :: (wsC ++ q1 :: c0 :: (ctail ++ q2 :: (wsD ++ after)))))) q →
        tagLineMatchAt ((before ++ (wsA ++ a :: b :: c :: (wsB ++ '=' :: (wsC ++ q1 :: c0 :: (ctail ++ q2 :: (wsD ++ after)))))).drop q) = some (e, g) →
        q + max e 1 ≤ before.length ∨
          (g = [a, b, c] ∧ q + e = before.length + (wsA.length + wsB.length + 4)) := by
      intro q e g hq hqa hqm
      have hdq : (before ++ (wsA ++ a :: b :: c :: (wsB ++ '=' :: (wsC ++ q1 :: c0 :: (ctail ++ q2 :: (wsD ++ after)))))).drop q = before.drop q ++ (wsA ++ a :: b :: c :: (wsB ++ '=' :: (wsC ++ q1 :: c0 :: (ctail ++ q2 :: (wsD ++ after))))) := by
        rw [List.drop_append_eq_append_drop,
            show q - before.length = 0 from by omega, List.drop_zero]
      have hbdne : before.drop q ≠ [] := by
        intro he
        rw [List.drop_eq_nil_iff] at he
        omega
      have hblast : before.getLast? = some '\n' := by
        rcases hanch with rfl | h
        · simp at hq
        · exact h
      have hbdlast : (before.drop q).getLast? = some '\n' := by
        rw [getLast?_drop_of_ne_nil before q hbdne]
        exact hblast
      have hlbd : (before.drop q).length = before.length - q := List.length_drop q before
      rw [hdq] at hqm
      cases hbdw : List.dropWhile pyIsSpace (before.drop q) with
      | nil =>
        have hallws : ∀ ch ∈ before.drop q, pyIsSpace ch = true :=
          List.dropWhile_eq_nil_iff.mp hbdw
        rw [show before.drop q ++ (wsA ++ a :: b :: c :: (wsB ++ '=' :: (wsC ++ q1 :: c0 :: (ctail ++ q2 :: (wsD ++ after)))))
            = (before.drop q ++ wsA) ++ (a :: b :: c :: (wsB ++ '=' :: (wsC ++ q1 :: c0 :: (ctail ++ q2 :: (wsD ++ after)))))
            from by rw [List.append_assoc]] at hqm
        rw [tagLineMatchAt_eval (before.drop q ++ wsA) wsB _ a b c
          (fun ch hch => by
            rcases List.mem_append.mp hch with h | h
            · exact hallws ch h
            · exact (hwsA ch h).1)
          (fun ch hch => (hwsB ch hch).1) ha hb hc] at hqm
        simp only [Option.some.injEq, Prod.mk.injEq] at hqm
        obtain ⟨hv, hgp⟩ := hqm
        right
        refine ⟨hgp.symm, ?_⟩
        rw [← hv]
        simp only [List.length_append]
        omega
      | cons x t0 =>
        left
        have hbound := tagLine_cross_bound (before.drop q) (wsA ++ a :: b :: c :: (wsB ++ '=' :: (wsC ++ q1 :: c0 :: (ctail ++ q2 :: (wsD ++ after))))) _ a e g hbdlast
          (by rw [hbdw]; exact List.cons_ne_nil x t0) hr0 ha hqm
        have hmax : max e 1 ≤ e + 1 := Nat.max_le.mpr ⟨by omega, by omega⟩
        omega
    obtain ⟨qi, ki, hmemi, hqki⟩ := finditer_coverage inlineMatchAt (before ++ (wsA ++ a :: b :: c :: (wsB ++ '=' :: (wsC ++ q1 :: c0 :: (ctail ++ q2 :: (wsD ++ after)))))) before.length
      (wsA.length + wsB.length + wsC.length + ctail.length + 7 + tailConsumed (wsD ++ after)) ([a, b, c], c0 :: ctail) hpT hanchp hMi hint_i
    obtain ⟨qt, kt, hmemt, hqkt⟩ := finditer_coverage tagLineMatchAt (before ++ (wsA ++ a :: b :: c :: (wsB ++ '=' :: (wsC ++ q1 :: c0 :: (ctail ++ q2 :: (wsD ++ after)))))) before.length
      (wsA.length + wsB.length + 4) [a, b, c] hpT hanchp hMt hint_t
    have hpre2 : (before ++ (wsA ++ a :: b :: c :: (wsB ++ '=' :: (wsC ++ q1 :: c0 :: (ctail ++ q2 :: (wsD ++ after)))))) = (before ++ wsA ++ [a, b, c] ++ wsB ++ ['='])
        ++ (wsC ++ q1 :: (c0 :: (ctail ++ q2 :: (wsD ++ after)))) := by
      simp [List.append_assoc]
    have hpre2len : (before ++ wsA ++ [a, b, c] ++ wsB ++ ['=']).length
        = before.length + (wsA.length + wsB.length + 4) := by
      simp only [List.length_append, List.length_cons, List.length_nil]
      omega
    have hproc : processTagMatch (before ++ (wsA ++ a :: b :: c :: (wsB ++ '=' :: (wsC ++ q1 :: c0 :: (ctail ++ q2 :: (wsD ++ after)))))) (qt + kt) [a, b, c] = [([a, b, c], none)] := by
      rw [hqkt, ← hpre2len, hpre2]
      exact processTagMatch_at_quote (before ++ wsA ++ [a, b, c] ++ wsB ++ ['=']) wsC
        (c0 :: (ctail ++ q2 :: (wsD ++ after))) [a, b, c] q1
        (fun ch hch => (hwsC ch hch).1) hq1
    have hocc1 : ([a, b, c], some (pyStrip (c0 :: ctail)))
        ∈ (finditer inlineMatchAt (before ++ (wsA ++ a :: b :: c :: (wsB ++ '=' :: (wsC ++ q1 :: c0 :: (ctail ++ q2 :: (wsD ++ after))))))).map (fun m => (m.2.2.1, some (pyStrip m.2.2.2))) :=
      List.mem_map.mpr ⟨(qi, ki, ([a, b, c], c0 :: ctail)), hmemi, rfl⟩
    have hocc2 : ([a, b, c], (none : Option (List Char)))
        ∈ (finditer tagLineMatchAt (before ++ (wsA ++ a :: b :: c :: (wsB ++ '=' :: (wsC ++ q1 :: c0 :: (ctail ++ q2 :: (wsD ++ after))))))).flatMap
            (fun m => processTagMatch (before ++ (wsA ++ a :: b :: c :: (wsB ++ '=' :: (wsC ++ q1 :: c0 :: (ctail ++ q2 :: (wsD ++ after)))))) (m.1 + m.2.1) m.2.2) := by
      refine List.mem_flatMap.mpr ⟨(qt, kt, [a, b, c]), hmemt, ?_⟩
      show ([a, b, c], (none : Option (List Char))) ∈ processTagMatch (before ++ (wsA ++ a :: b :: c :: (wsB ++ '=' :: (wsC ++ q1 :: c0 :: (ctail ++ q2 :: (wsD ++ after)))))) (qt + kt) [a, b, c]
      rw [hproc]
      exact List.mem_singleton.mpr rfl
    rw [hT]
    refine ⟨?_, ?_, ?_⟩
    · exact List.mem_append.mpr (Or.inl hocc1)
    · exact List.mem_append.mpr (Or.inr hocc2)
    · show 2 ≤ List.countP (fun occ => decide (occ.1 = [a, b, c]))
        (((finditer inlineMatchAt (before ++ (wsA ++ a :: b :: c :: (wsB ++ '=' :: (wsC ++ q1 :: c0 :: (ctail ++ q2 :: (wsD ++ after))))))).map fun m => (m.2.2.1, some (pyStrip m.2.2.2)))
          ++ ((finditer tagLineMatchAt (before ++ (wsA ++ a :: b :: c :: (wsB ++ '=' :: (wsC ++ q1 :: c0 :: (ctail ++ q2 :: (wsD ++ after))))))).flatMap
              fun m => processTagMatch (before ++ (wsA ++ a :: b :: c :: (wsB ++ '=' :: (wsC ++ q1 :: c0 :: (ctail ++ q2 :: (wsD ++ after)))))) (m.1 + m.2.1) m.2.2))
      rw [List.countP_append]
      have h1 : 0 < List.countP (fun occ => decide (occ.1 = [a, b, c]))
          ((finditer inlineMatchAt (before ++ (wsA ++ a :: b :: c :: (wsB ++ '=' :: (wsC ++ q1 :: c0 :: (ctail ++ q2 :: (wsD ++ after))))))).map fun m => (m.2.2.1, some (pyStrip m.2.2.2))) :=
        List.countP_pos_iff.mpr ⟨([a, b, c], some (pyStrip (c0 :: ctail))), hocc1, by simp⟩
      have h2 : 0 < List.countP (fun occ => decide (occ.1 = [a, b, c]))
          ((finditer tagLineMatchAt (before ++ (wsA ++ a :: b :: c :: (wsB ++ '=' :: (wsC ++ q1 :: c0 :: (ctail ++ q2 :: (wsD ++ after))))))).flatMap
            fun m => processTagMatch (before ++ (wsA ++ a :: b :: c :: (wsB ++ '=' :: (wsC ++ q1 :: c0 :: (ctail ++ q2 :: (wsD ++ after)))))) (m.1 + m.2.1) m.2.2) :=
        List.countP_pos_iff.mpr ⟨([a, b, c], (none : Option (List Char))), hocc2, by simp⟩
      omega


/-- C10, witness: the file `# x\n ABC = "Foo"\nrest` yields both the named
inline occurrence and the nameless block-scan occurrence for `ABC`. -/
theorem c10_witness :
    (['A', 'B', 'C'], some (pyStrip (str "Foo")))
        ∈ find_tags_in_country_text
            (inlineLineText (str "# x\n") [' '] [] [' '] [] (str "Foo") (str "\nrest")
              'A' 'B' 'C' '"' '"') ∧
    (['A', 'B', 'C'], (none : Option (List Char)))
        ∈ find_tags_in_country_text
            (inlineLineText (str "# x\n") [' '] [] [' '] [] (str "Foo") (str "\nrest")
              'A' 'B' 'C' '"' '"') ∧
    2 ≤ (find_tags_in_country_text
            (inlineLineText (str "# x\n") [' '] [] [' '] [] (str "Foo") (str "\nrest")
              'A' 'B' 'C' '"' '"')).countP
          (fun occ => decide (occ.1 = ['A', 'B', 'C'])) :=
  c10_inline_double_occurrence (str "# x\n") [' '] [] [' '] [] (str "Foo") (str "\nrest")
    'A' 'B' 'C' '"' '"' (by decide) (by decide) (by decide) (by decide) (by decide)
    (by decide) (by decide) (by decide) (by decide) (by decide) (by decide) (by decide)
    (by decide)

end TagsTool
